import Mathlib

/-!
Verification of the PaddleMamba selective state-space scan engine.

The source (`model/pscan.py`, `model/mamba.py`) computes, per batch element
`b`, channel `e` and state coordinate `n`, a time-varying linear recurrence
`h_t = deltaA_t * h_{t-1} + BX_t` with `h_{-1} = 0` along the length axis.
Every tensor operation of the scan engine acts elementwise on the `(b, e, n)`
axes and only the length axis is indexed, sliced or reshaped, so the engine
is embedded per lane: a tensor of shape `(B, L, D, N)` becomes, for each
fixed lane `(b, e, n)`, a `List ℚ` of length `L`, and the in-place strided
tensor writes become `List.set` at the corresponding flat length index.
Machine floats are modelled as exact rationals (the spec's equalities are
"up to floating tolerance", i.e. the real-arithmetic ideal values).

Fallible code (the slice `A[:, :, 2**(num_steps-2)-1:L:2**(num_steps-2)]`
executed with `num_steps = 1`, where `2**(-1) = 0.5` is a fractional slice
bound/stride and raises a `TypeError`) is modelled with `Option`: `none`
models the raised exception.

The `MambaBlock` parameterization (`mamba.py`), which uses transcendental
functions (`exp`, `softplus`, `silu`, `rsqrt`), is embedded later in this
file over `ℝ`, with tensors as index functions `ℕ → ℝ`.
-/

/-- Fuel-based floor base-2 logarithm (fuel `f ≥ n` suffices); structural so
that concrete instances evaluate. -/
def log2go : ℕ → ℕ → ℕ
  | 0, _ => 0
  | f + 1, n => if n ≤ 1 then 0 else log2go f (n / 2) + 1

/-- `int(math.log2(L))` of the source for `L ≥ 1` (exact on the powers of
two it is applied to). -/
def log2M (n : ℕ) : ℕ := log2go n n

/-- Fuel-based ceiling base-2 logarithm. -/
def clog2go : ℕ → ℕ → ℕ
  | 0, _ => 0
  | f + 1, n => if n ≤ 1 then 0 else clog2go f ((n + 1) / 2) + 1

/-- `math.ceil(math.log2(len))` of the source for `len ≥ 1`. -/
def clog2M (n : ℕ) : ℕ := clog2go n n

/-- Total read of a rational list: out-of-range indices give `0`.  Models
reading one lane entry of a tensor at a length index. -/
def lget (l : List ℚ) (i : ℕ) : ℚ := l.getD i 0

/-- One lane of the pair of tensors `(A, X)` that `PScan.pscan` /
`PScan.pscan_rev` mutate in place (`A` = transition coefficients `deltaA`,
`X` = injection terms `BX`, both indexed by time along the length axis). -/
structure ScanSt where
  A : List ℚ
  X : List ℚ

/-- One pairwise combine of the scan, writing index `w` from reads at `w` and
`r`.  Mirrors the source's update order: the `X` slot is overwritten first,
using the not-yet-updated `A` value of the same slot
(`Xa[..] = Xa[..] + Aa[..] * Xa[..]` then `Aa[..] = Aa[..] * Aa[..]`).
`aswap` records the operand order of the `A` update as written in the source
(`False`: `A[w] := A[r] * A[w]`, as in `pscan` lines 39/46/57 and all of
`pscan_rev`; `True`: `A[w] := A[w] * A[r]`, as in `pscan` line 68). -/
def pairComb (aswap : Bool) (w r : ℕ) (st : ScanSt) : ScanSt :=
  let X' := st.X.set w (lget st.X w + lget st.A w * lget st.X r)
  let A' := st.A.set w (if aswap then lget st.A w * lget st.A r else lget st.A r * lget st.A w)
  ⟨A', X'⟩

/-- `foldRange f i c st` applies `f i`, `f (i+1)`, …, `f (i+c-1)` in order:
the per-pair decomposition of one whole-slice tensor assignment of the
source (the pairs touch disjoint indices). -/
def foldRange (f : ℕ → ScanSt → ScanSt) : ℕ → ℕ → ScanSt → ScanSt
  | _, 0, st => st
  | i, c + 1, st => foldRange f (i + 1) c (f i st)

/-- Up-sweep pair `i` of `PScan.pscan` at stride `s = 2^k` (lines 38-39):
after `k` rounds the active view holds the original indices
`s-1, 2s-1, 3s-1, …`; the reshape pairs them up, pair `i` having slot 0 at
flat index `(2i+1)s-1` and slot 1 at `(2i+2)s-1`, and slot 1 is overwritten. -/
def upPairF (s i : ℕ) : ScanSt → ScanSt :=
  pairComb false ((2 * i + 2) * s - 1) ((2 * i + 1) * s - 1)

/-- One up-sweep round of `PScan.pscan` (the body of the first loop): at
round `r` the active view has `L / 2^r` elements, reshaped into
`L / 2^(r+1)` pairs. -/
def upRoundF (L r : ℕ) : ScanSt → ScanSt :=
  foldRange (upPairF (2 ^ r)) 0 (L / 2 ^ (r + 1))

/-- The first `cnt` up-sweep rounds of `PScan.pscan`
(`for _ in range(num_steps-2)` with `cnt = num_steps - 2`). -/
def upSweepF (L : ℕ) : ℕ → ScanSt → ScanSt
  | 0, st => st
  | r + 1, st => upRoundF L r (upSweepF L r st)

/-- The 4-element base case of `PScan.pscan` (lines 44-48), on the active
view of stride `s = 2^(num_steps-2)` whose flat indices are
`s-1, 2s-1, 3s-1, 4s-1`: combine slot 1 from slot 0 (lines 45-46), then
overwrite slot 3 with the full combination (line 48, which reads the updated
`X` at `2s-1` but the original `A` at `3s-1` and `4s-1`). -/
def baseFourF (s : ℕ) (st : ScanSt) : ScanSt :=
  let st1 := pairComb false (2 * s - 1) (s - 1) st
  ⟨st1.A,
   st1.X.set (4 * s - 1)
     (lget st1.X (4 * s - 1) +
       lget st1.A (4 * s - 1) *
         (lget st1.X (3 * s - 1) + lget st1.A (3 * s - 1) * lget st1.X (2 * s - 1)))⟩

/-- Lines 54-57 of `PScan.pscan`: re-slice the stride-`2^(num_steps-2)` view
and combine slot 2 from slot 1. -/
def midF (s : ℕ) : ScanSt → ScanSt :=
  pairComb false (3 * s - 1) (2 * s - 1)

/-- Down-sweep pair `i ≥ 1` of `PScan.pscan` at stride `s = 2^k`
(lines 67-68): the stride-`s` view is reshaped into pairs; the slice `[1:]`
rule writes slot 0 of pair `i` (flat index `(2i+1)s-1`) from slot 1 of pair
`i-1` (flat index `2is-1`).  Here the `A` update multiplies in source order
`A[w] * A[r]` (`aswap = true`). -/
def downPairF (s i : ℕ) : ScanSt → ScanSt :=
  pairComb true ((2 * i + 1) * s - 1) (2 * i * s - 1)

/-- One down-sweep round of `PScan.pscan` at stride `2^k`: pairs
`1 … L/2^(k+1) - 1`. -/
def downRoundF (L k : ℕ) : ScanSt → ScanSt :=
  foldRange (downPairF (2 ^ k)) 1 (L / 2 ^ (k + 1) - 1)

/-- The down-sweep rounds `k = cnt-1, …, 1, 0` of `PScan.pscan`
(`for k in range(num_steps-3, -1, -1)` with `cnt = num_steps - 2`). -/
def downSweepF (L : ℕ) : ℕ → ScanSt → ScanSt
  | 0, st => st
  | k + 1, st => downSweepF L k (downRoundF L k st)

/-- One lane of `PScan.pscan(A, X)` (lines 27-68), for the power-of-two
lengths it is invoked with by `PScan.forward`.  `num_steps = int(log2(L))`.
After the up-sweep loop the active view has `L / 2^(num_steps-2)` elements
(`num_steps - 2` in `ℕ` matches Python's empty `range` for
`num_steps < 2`).  With 4 remaining elements the base case, the mid combine
and the down-sweep run; with 1 the routine returns with the state untouched
(`else: return`).  With 2 remaining elements (only for `L = 2`) the source
combines the pair (line 50) but, lacking the early `return` of the branch,
falls through to line 54 where `2**(num_steps-2) = 2**(-1) = 0.5` is used as
a slice bound and stride: a fractional slice index raises `TypeError`,
modelled here by `none`. -/
def pscanModel (Ain Xin : List ℚ) : Option ScanSt :=
  let L := Ain.length
  let ns := log2M L
  let st := upSweepF L (ns - 2) ⟨Ain, Xin⟩
  let T := L / 2 ^ (ns - 2)
  if T = 4 then
    let s := 2 ^ (ns - 2)
    some (downSweepF L (ns - 2) (midF s (baseFourF s st)))
  else if T = 2 then
    none
  else
    some st

/-- Up-sweep pair `i` of `PScan.pscan_rev` at stride `s` (lines 82-83): the
mirror image; slot 0 (flat index `2is`) is overwritten from slot 1 (flat
index `(2i+1)s`), and the active view keeps slot 0 (`A[:, :, 0:L:2^k]`). -/
def upPairR (s i : ℕ) : ScanSt → ScanSt :=
  pairComb false (2 * i * s) ((2 * i + 1) * s)

/-- One up-sweep round of `PScan.pscan_rev`. -/
def upRoundR (L r : ℕ) : ScanSt → ScanSt :=
  foldRange (upPairR (2 ^ r)) 0 (L / 2 ^ (r + 1))

/-- The first `cnt` up-sweep rounds of `PScan.pscan_rev`. -/
def upSweepR (L : ℕ) : ℕ → ScanSt → ScanSt
  | 0, st => st
  | r + 1, st => upRoundR L r (upSweepR L r st)

/-- The 4-element base case of `PScan.pscan_rev` (lines 88-92), on the
stride-`s` view with flat indices `0, s, 2s, 3s`: combine slot 2 from slot 3
(lines 89-90), then overwrite slot 0 with the full combination (line 92). -/
def baseFourR (s : ℕ) (st : ScanSt) : ScanSt :=
  let st1 := pairComb false (2 * s) (3 * s) st
  ⟨st1.A,
   st1.X.set 0
     (lget st1.X 0 +
       lget st1.A 0 * (lget st1.X s + lget st1.A s * lget st1.X (2 * s)))⟩

/-- Lines 98-101 of `PScan.pscan_rev`: combine slot 1 from slot 2. -/
def midR (s : ℕ) : ScanSt → ScanSt :=
  pairComb false s (2 * s)

/-- Down-sweep pair `i` of `PScan.pscan_rev` at stride `s` (lines 111-112):
the `[:-1]` slice writes slot 1 of every pair but the last (flat index
`(2i+1)s`) from slot 0 of pair `i+1` (flat index `(2i+2)s`). -/
def downPairR (s i : ℕ) : ScanSt → ScanSt :=
  pairComb false ((2 * i + 1) * s) ((2 * i + 2) * s)

/-- One down-sweep round of `PScan.pscan_rev` at stride `2^k`: pairs
`0 … L/2^(k+1) - 2`. -/
def downRoundR (L k : ℕ) : ScanSt → ScanSt :=
  foldRange (downPairR (2 ^ k)) 0 (L / 2 ^ (k + 1) - 1)

/-- The down-sweep rounds of `PScan.pscan_rev`, highest stride first. -/
def downSweepR (L : ℕ) : ℕ → ScanSt → ScanSt
  | 0, st => st
  | k + 1, st => downSweepR L k (downRoundR L k st)

/-- One lane of `PScan.pscan_rev(A, X)` (lines 70-112).  Control flow is the
mirror image of `pscanModel`, including the missing early `return` of the
2-element branch (lines 93-94 fall through to the fractional slice stride at
line 98 when `L = 2`, raising `TypeError`: `none`). -/
def pscanRevModel (Ain Xin : List ℚ) : Option ScanSt :=
  let L := Ain.length
  let ns := log2M L
  let st := upSweepR L (ns - 2) ⟨Ain, Xin⟩
  let T := L / 2 ^ (ns - 2)
  if T = 4 then
    let s := 2 ^ (ns - 2)
    some (downSweepR L (ns - 2) (midR s (baseFourR s st)))
  else if T = 2 then
    none
  else
    some st

/-- `npo2(len) = 2 ** ceil(log2(len))` (`pscan.py` lines 5-9), the next power
of two at or above `len`.  (`math.log2(0)` raises in the source; callers
have `len ≥ 1`.) -/
def npo2M (n : ℕ) : ℕ := 2 ^ clog2M n

/-- One lane of `pad_npo2` (`pscan.py` lines 11-23): zero-pad the length axis
on the right up to the next power of two. -/
def padNpo2 (l : List ℚ) : List ℚ :=
  l ++ List.replicate (npo2M l.length - l.length) 0

/-- One lane of `PScan.forward` (lines 114-131) together with the context it
saves for the backward pass: pad `A_in`, `X_in` to the next power of two
when needed (clone otherwise), transpose the length axis inward (a lane
no-op), run the in-place scan, and save `(A_in, X)` where `X` is the padded,
scanned buffer.  Returns `none` when the scan raises (`L = 2`). -/
def forwardCtx (Ain Xin : List ℚ) : Option (List ℚ × List ℚ) :=
  let L := Xin.length
  let A := if L = npo2M L then Ain else padNpo2 Ain
  let X := if L = npo2M L then Xin else padNpo2 Xin
  match pscanModel A X with
  | none => none
  | some st => some (Ain, st.X)

/-- One lane of the value returned by `PScan.forward` (line 131): the
scanned buffer truncated back to the original length. -/
def forwardModel (Ain Xin : List ℚ) : Option (List ℚ) :=
  match forwardCtx Ain Xin with
  | none => none
  | some (_, X) => some (X.take Xin.length)

/-- One lane of `PScan.backward(ctx, grad_output_in)` (lines 133-153):
`ctxA` and `ctxX` are the saved `A_in` (original length) and scanned padded
hidden states; `Gin` is the upstream gradient.  The gradient and `A_in` are
re-padded when the length is not a power of two, the transition array is
shifted one step left with a trailing zero
(`A = pad(A_in[:, :, 1:], (0, 0, 0, 1))`), the mirrored scan runs in place
on the gradient, and `Q[t] = X[t-1] * grad[t]` (`t ≥ 1`, `Q[0] = 0`) gives
the gradient with respect to the transition coefficients.  Returns the pair
(grad wrt `A_in`, grad wrt `X_in`), truncated to the original length. -/
def backwardModel (ctxA ctxX Gin : List ℚ) : Option (List ℚ × List ℚ) :=
  let L := Gin.length
  let G := if L = npo2M L then Gin else padNpo2 Gin
  let Ain := if L = npo2M L then ctxA else padNpo2 ctxA
  let Ash := Ain.drop 1 ++ [0]
  match pscanRevModel Ash G with
  | none => none
  | some st =>
    let Q := (List.range ctxX.length).map
      (fun t => if t = 0 then 0 else lget ctxX (t - 1) * lget st.X t)
    some (Q.take L, st.X.take L)

/-- One lane of the reference loop of `MambaBlock.selective_scan_seq`
(`mamba.py` lines 259-264): `h` starts at zero and
`h = deltaA[:, t] * h + BX[:, t]` left to right, collecting every `h`. -/
def seqScanGo (h : ℚ) : List ℚ → List ℚ → List ℚ
  | a :: A', x :: X' => (a * h + x) :: seqScanGo (a * h + x) A' X'
  | _, _ => []

/-- One lane of the hidden-state sequence produced by
`MambaBlock.selective_scan_seq`. -/
def seqScan (A X : List ℚ) : List ℚ := seqScanGo 0 A X

/-- The recurrence `h_t = deltaA_t * h_{t-1} + BX_t`, `h_{-1} = 0`, as a
function of `t` (the semantic specification both scans must realize). -/
def hval (A X : List ℚ) : ℕ → ℚ
  | 0 => lget X 0
  | t + 1 => lget A (t + 1) * hval A X t + lget X (t + 1)

-- Sanity checks of the lane embedding on concrete inputs (the spec's §8
-- concrete scenario and a length-8 instance, traced against the source).
example : pscanModel [1/2, 1/2, 1/2, 1/2] [1, 1, 1, 1] =
    some ⟨[1/2, 1/4, 1/8, 1/2], [1, 3/2, 7/4, 15/8]⟩ := by
  norm_num [pscanModel, log2M, log2go, upSweepF, upRoundF, foldRange, upPairF,
    pairComb, baseFourF, midF, downSweepF, downRoundF, downPairF, lget]
example : forwardModel [1/2, 1/2] [1, 1] = none := by
  norm_num [forwardModel, forwardCtx, npo2M, clog2M, clog2go, pscanModel, log2M, log2go,
    upSweepF, upRoundF, foldRange, upPairF, pairComb, lget]
example : forwardModel [1/2, 1/2, 1/2] [1, 1, 1] = some [1, 3/2, 7/4] := by
  norm_num [forwardModel, forwardCtx, npo2M, clog2M, clog2go, padNpo2, pscanModel,
    log2M, log2go, upSweepF, upRoundF, foldRange, upPairF,
    pairComb, baseFourF, midF, downSweepF, downRoundF, downPairF, lget]
example : seqScan [1/2, 1/2, 1/2] [1, 1, 1] = [1, 3/2, 7/4] := by
  norm_num [seqScan, seqScanGo]

/-! Basic laws of the lane state: reads after writes, length preservation. -/

lemma lget_set (l : List ℚ) (i : ℕ) (v : ℚ) (p : ℕ) :
    lget (l.set i v) p = if p = i ∧ i < l.length then v else lget l p := by
  unfold lget
  rcases eq_or_ne p i with rfl | hne
  · by_cases hi : p < l.length
    · simp [List.getD_eq_getElem?_getD, List.getElem?_set_self hi, hi]
    · rw [List.set_eq_of_length_le (Nat.le_of_not_lt hi)]
      simp [hi]
  · simp [List.getD_eq_getElem?_getD, List.getElem?_set_ne (fun h => hne h.symm), hne]

lemma lget_set_ne (l : List ℚ) (i : ℕ) (v : ℚ) (p : ℕ) (h : p ≠ i) :
    lget (l.set i v) p = lget l p := by
  rw [lget_set]; simp [h]

lemma lget_set_self (l : List ℚ) (i : ℕ) (v : ℚ) (h : i < l.length) :
    lget (l.set i v) i = v := by
  rw [lget_set]; simp [h]

lemma pairComb_lenA (b : Bool) (w r : ℕ) (st : ScanSt) :
    (pairComb b w r st).A.length = st.A.length := by
  simp [pairComb]

lemma pairComb_lenX (b : Bool) (w r : ℕ) (st : ScanSt) :
    (pairComb b w r st).X.length = st.X.length := by
  simp [pairComb]

lemma lget_pairComb_X (b : Bool) (w r : ℕ) (st : ScanSt) (p : ℕ) :
    lget (pairComb b w r st).X p =
      if p = w ∧ w < st.X.length then lget st.X w + lget st.A w * lget st.X r
      else lget st.X p := by
  simp only [pairComb, lget_set]

lemma lget_pairComb_A (b : Bool) (w r : ℕ) (st : ScanSt) (p : ℕ) :
    lget (pairComb b w r st).A p =
      if p = w ∧ w < st.A.length then lget st.A r * lget st.A w
      else lget st.A p := by
  simp only [pairComb, lget_set]
  cases b <;> simp [mul_comm]

lemma foldRange_len (f : ℕ → ScanSt → ScanSt)
    (hf : ∀ i st, (f i st).A.length = st.A.length ∧ (f i st).X.length = st.X.length) :
    ∀ (c i : ℕ) (st : ScanSt),
      (foldRange f i c st).A.length = st.A.length ∧
      (foldRange f i c st).X.length = st.X.length := by
  intro c
  induction c with
  | zero => intro i st; simp [foldRange]
  | succ c ih =>
    intro i st
    have h1 := hf i st
    have h2 := ih (i + 1) (f i st)
    simp only [foldRange]
    exact ⟨h2.1.trans h1.1, h2.2.trans h1.2⟩

/-- A fold of pairwise combines leaves untouched every position that is not
one of its write targets. -/
lemma foldRange_pair_untouched (b : Bool) (w r : ℕ → ℕ) :
    ∀ (c lo : ℕ) (st : ScanSt) (p : ℕ),
      (∀ j, lo ≤ j → j < lo + c → p ≠ w j) →
      lget (foldRange (fun i => pairComb b (w i) (r i)) lo c st).X p = lget st.X p ∧
      lget (foldRange (fun i => pairComb b (w i) (r i)) lo c st).A p = lget st.A p := by
  intro c
  induction c with
  | zero => intro lo st p _; simp [foldRange]
  | succ c ih =>
    intro lo st p hp
    simp only [foldRange]
    have hlo : p ≠ w lo := hp lo le_rfl (by omega)
    have hrest := ih (lo + 1) (pairComb b (w lo) (r lo) st) p
      (fun j hj1 hj2 => hp j (by omega) (by omega))
    refine ⟨hrest.1.trans ?_, hrest.2.trans ?_⟩
    · rw [lget_pairComb_X]; simp [hlo]
    · rw [lget_pairComb_A]; simp [hlo]

/-- A fold of pairwise combines with injective, read-disjoint write targets
gives each written position the value combined from the original state. -/
lemma foldRange_pair_written (b : Bool) (w r : ℕ → ℕ) (N : ℕ)
    (hinj : ∀ j k, j < N → k < N → w j = w k → j = k)
    (hwr : ∀ j k, j < N → k < N → w j ≠ r k) :
    ∀ (c lo : ℕ) (st : ScanSt) (j : ℕ), lo ≤ j → j < lo + c → lo + c ≤ N →
      w j < st.X.length → w j < st.A.length →
      lget (foldRange (fun i => pairComb b (w i) (r i)) lo c st).X (w j) =
        lget st.X (w j) + lget st.A (w j) * lget st.X (r j) ∧
      lget (foldRange (fun i => pairComb b (w i) (r i)) lo c st).A (w j) =
        lget st.A (r j) * lget st.A (w j) := by
  intro c
  induction c with
  | zero => intro lo st j h1 h2; omega
  | succ c ih =>
    intro lo st j h1 h2 hN hlX hlA
    simp only [foldRange]
    rcases eq_or_lt_of_le h1 with rfl | hlt
    · -- the pair written first; the rest of the fold leaves it alone
      have hrest := foldRange_pair_untouched b w r c (lo + 1)
        (pairComb b (w lo) (r lo) st) (w lo)
        (fun k hk1 hk1' hk2 => by
          have := hinj lo k (by omega) (by omega) hk2; omega)
      refine ⟨hrest.1.trans ?_, hrest.2.trans ?_⟩
      · rw [lget_pairComb_X, if_pos ⟨rfl, hlX⟩]
      · rw [lget_pairComb_A, if_pos ⟨rfl, hlA⟩]
    · -- written later; the first pair does not alias its reads
      have hne1 : w j ≠ w lo := fun h => by
        have := hinj j lo (by omega) (by omega) h; omega
      have hne2 : r j ≠ w lo := fun h => (hwr lo j (by omega) (by omega) h.symm).elim
      have hrest := ih (lo + 1) (pairComb b (w lo) (r lo) st) j (by omega) (by omega)
        (by omega) (by rwa [pairComb_lenX]) (by rwa [pairComb_lenA])
      refine ⟨hrest.1.trans ?_, hrest.2.trans ?_⟩
      · rw [lget_pairComb_X, if_neg (fun h => hne1 h.1), lget_pairComb_A,
          if_neg (fun h => hne1 h.1), lget_pairComb_X, if_neg (fun h => hne2 h.1)]
      · rw [lget_pairComb_A, if_neg (fun h => hne2 h.1), lget_pairComb_A,
          if_neg (fun h => hne1 h.1)]

/-! Segment algebra for the scan monoid `(a, x) ∘ (a', x') = (a a', a' x + x')`:
`prodA lo c` is the transition product over the index block `[lo, lo+c)` and
`segX lo c` the block's scanned injection value. -/

def prodA (A : List ℚ) (lo : ℕ) : ℕ → ℚ
  | 0 => 1
  | c + 1 => prodA A lo c * lget A (lo + c)

def segX (A X : List ℚ) (lo : ℕ) : ℕ → ℚ
  | 0 => 0
  | c + 1 => lget A (lo + c) * segX A X lo c + lget X (lo + c)

lemma prodA_add (A : List ℚ) (lo c : ℕ) :
    ∀ c', prodA A lo (c + c') = prodA A lo c * prodA A (lo + c) c' := by
  intro c'
  induction c' with
  | zero => simp [prodA]
  | succ m ih =>
    show prodA A lo (c + m + 1) = _
    rw [prodA, ih, prodA, Nat.add_assoc, mul_assoc]

lemma segX_add (A X : List ℚ) (lo c : ℕ) :
    ∀ c', segX A X lo (c + c') =
      prodA A (lo + c) c' * segX A X lo c + segX A X (lo + c) c' := by
  intro c'
  induction c' with
  | zero => simp [prodA, segX]
  | succ m ih =>
    show segX A X lo (c + m + 1) = _
    rw [segX, ih, prodA, segX, Nat.add_assoc]
    ring

lemma hval_eq_segX (A X : List ℚ) : ∀ t, hval A X t = segX A X 0 (t + 1) := by
  intro t
  induction t with
  | zero => simp [hval, segX]
  | succ m ih =>
    rw [hval, ih]
    conv_rhs => rw [segX]
    simp

/-! The sequential reference loop realizes the recurrence `hval`. -/

lemma seqScanGo_length : ∀ (A X : List ℚ) (h : ℚ),
    (seqScanGo h A X).length = min A.length X.length := by
  intro A
  induction A with
  | nil => intro X h; cases X <;> simp [seqScanGo]
  | cons a A' ih =>
    intro X h
    cases X with
    | nil => simp [seqScanGo]
    | cons x X' => simp [seqScanGo, ih]; omega

lemma seqScanGo_zero (A X : List ℚ) (h : ℚ) (hA : 0 < A.length) (hX : 0 < X.length) :
    lget (seqScanGo h A X) 0 = lget A 0 * h + lget X 0 := by
  cases A with
  | nil => simp at hA
  | cons a A' =>
    cases X with
    | nil => simp at hX
    | cons x X' => simp [seqScanGo, lget]

lemma seqScanGo_succ : ∀ (A X : List ℚ) (h : ℚ) (t : ℕ),
    t + 1 < A.length → t + 1 < X.length →
    lget (seqScanGo h A X) (t + 1) =
      lget A (t + 1) * lget (seqScanGo h A X) t + lget X (t + 1) := by
  intro A
  induction A with
  | nil => intro X h t hA; simp at hA
  | cons a A' ih =>
    intro X h t hA hX
    cases X with
    | nil => simp at hX
    | cons x X' =>
      simp only [seqScanGo]
      cases t with
      | zero =>
        have h0 := seqScanGo_zero A' X' (a * h + x) (by simpa using hA) (by simpa using hX)
        simp only [lget] at h0 ⊢
        simpa using h0
      | succ m =>
        have hs := ih X' (a * h + x) m (by simpa using hA) (by simpa using hX)
        simp only [lget] at hs ⊢
        simpa using hs

lemma seqScan_eq_hval (A X : List ℚ) (t : ℕ) (hA : t < A.length) (hX : t < X.length) :
    lget (seqScan A X) t = hval A X t := by
  induction t with
  | zero =>
    rw [seqScan, seqScanGo_zero A X 0 (by omega) (by omega), hval]
    ring
  | succ m ih =>
    rw [seqScan, seqScanGo_succ A X 0 m hA hX, hval,
      ← seqScan, ih (by omega) (by omega)]

/-! Bridges from the fuel-based logarithms to `Nat.log` / `Nat.clog`, and
the next-power-of-two facts used by the padding path. -/

lemma log2go_eq_log : ∀ f n, n ≤ f → log2go f n = Nat.log 2 n := by
  intro f
  induction f with
  | zero =>
    intro n hn
    interval_cases n
    simp [log2go]
  | succ f ih =>
    intro n hn
    show (if n ≤ 1 then 0 else log2go f (n / 2) + 1) = _
    by_cases h1 : n ≤ 1
    · interval_cases n <;> simp [h1]
    · rw [if_neg h1, ih (n / 2) (by omega)]
      conv_rhs => rw [Nat.log_of_one_lt_of_le one_lt_two (by omega : 2 ≤ n)]

lemma clog2go_eq_clog : ∀ f n, n ≤ f → clog2go f n = Nat.clog 2 n := by
  intro f
  induction f with
  | zero =>
    intro n hn
    interval_cases n
    simp [clog2go]
  | succ f ih =>
    intro n hn
    show (if n ≤ 1 then 0 else clog2go f ((n + 1) / 2) + 1) = _
    by_cases h1 : n ≤ 1
    · rw [if_pos h1, Nat.clog_of_right_le_one h1]
    · rw [if_neg h1, ih ((n + 1) / 2) (by omega)]
      conv_rhs => rw [Nat.clog_of_two_le one_lt_two (by omega : 2 ≤ n)]
      congr 2

lemma log2M_eq (n : ℕ) : log2M n = Nat.log 2 n := log2go_eq_log n n le_rfl

lemma clog2M_eq (n : ℕ) : clog2M n = Nat.clog 2 n := clog2go_eq_clog n n le_rfl

lemma log2M_pow (n : ℕ) : log2M (2 ^ n) = n := by
  rw [log2M_eq, Nat.log_pow one_lt_two]

lemma npo2M_pow (n : ℕ) : npo2M (2 ^ n) = 2 ^ n := by
  rw [npo2M, clog2M_eq, Nat.clog_pow _ _ one_lt_two]

lemma le_npo2M (n : ℕ) : n ≤ npo2M n := by
  rw [npo2M, clog2M_eq]; exact Nat.le_pow_clog one_lt_two n

lemma npo2M_eq_two_iff (L : ℕ) (hL : 0 < L) : npo2M L = 2 ↔ L = 2 := by
  constructor
  · intro h
    rcases Nat.lt_or_ge L 2 with h2 | h2
    · interval_cases L
      rw [npo2M, clog2M_eq, Nat.clog_one_right] at h
      omega
    · have hle : L ≤ 2 := by
        have := le_npo2M L
        omega
      omega
  · intro h
    subst h
    have : (2 : ℕ) = 2 ^ 1 := rfl
    rw [this, npo2M_pow]

/-! The 2-adic valuation, used to describe which scan round touches which
position. -/

def v2 (q : ℕ) : ℕ := q.factorization 2

lemma v2_dvd (q : ℕ) : 2 ^ v2 q ∣ q := Nat.ordProj_dvd q 2

lemma v2_le_iff (q k : ℕ) (hq : q ≠ 0) : 2 ^ k ∣ q ↔ k ≤ v2 q :=
  Nat.Prime.pow_dvd_iff_le_factorization Nat.prime_two hq

lemma v2_mul_pow (m k : ℕ) (hm : ¬ 2 ∣ m) (hm0 : m ≠ 0) : v2 (m * 2 ^ k) = k := by
  have hq : m * 2 ^ k ≠ 0 := by positivity
  have hdvd : 2 ^ k ∣ m * 2 ^ k := Dvd.intro_left m rfl
  have hnot : ¬ 2 ^ (k + 1) ∣ m * 2 ^ k := by
    intro hcon
    rcases hcon with ⟨t, ht⟩
    apply hm
    refine ⟨t, ?_⟩
    have hpow : (0:ℕ) < 2 ^ k := Nat.pos_pow_of_pos k (by norm_num)
    have : m * 2 ^ k = 2 * t * 2 ^ k := by
      rw [ht, pow_succ]; ring
    exact Nat.eq_of_mul_eq_mul_right hpow this
  have h1 : k ≤ v2 (m * 2 ^ k) := (v2_le_iff _ _ hq).mp hdvd
  have h2 : ¬ (k + 1 ≤ v2 (m * 2 ^ k)) := fun hcon => hnot ((v2_le_iff _ _ hq).mpr hcon)
  omega

lemma v2_two_pow (k : ℕ) : v2 (2 ^ k) = k := by
  have := v2_mul_pow 1 k (by norm_num) one_ne_zero
  simpa using this

lemma v2_sub_pow (q r : ℕ) (h : 2 ^ (r + 1) ∣ q) (hq : q ≠ 0) : v2 (q - 2 ^ r) = r := by
  rcases h with ⟨m, hm⟩
  have hm0 : m ≠ 0 := by
    rintro rfl
    simp at hm
    exact hq hm
  have hsub : q - 2 ^ r = (2 * m - 1) * 2 ^ r := by
    have : q = 2 * m * 2 ^ r := by rw [hm, pow_succ]; ring
    rw [this]
    have h1 : 1 ≤ 2 * m := by omega
    rw [Nat.sub_mul, one_mul]
  rw [hsub]
  exact v2_mul_pow _ _ (by omega) (by omega)

/-! Pointwise effect of each scan round.  A position `p` is written by the
forward up-sweep round of stride `2^r` exactly when `2^(r+1)` divides `p+1`,
and by the forward down-sweep round of stride `2^k` exactly when `p+1` is an
odd multiple of `2^k` other than `2^k` itself. -/

lemma upRoundF_spec (L r : ℕ) (st : ScanSt) (hA : st.A.length = L) (hX : st.X.length = L)
    (hdvd : 2 ^ (r + 1) ∣ L) (p : ℕ) (hp : p < L) :
    (2 ^ (r + 1) ∣ p + 1 →
      lget (upRoundF L r st).X p = lget st.X p + lget st.A p * lget st.X (p - 2 ^ r) ∧
      lget (upRoundF L r st).A p = lget st.A (p - 2 ^ r) * lget st.A p) ∧
    (¬ 2 ^ (r + 1) ∣ p + 1 →
      lget (upRoundF L r st).X p = lget st.X p ∧
      lget (upRoundF L r st).A p = lget st.A p) := by
  have hs : 0 < 2 ^ r := pow_pos (by norm_num) r
  have h2s : 2 ^ (r + 1) = 2 * 2 ^ r := by rw [pow_succ]; ring
  have hLc : 2 ^ (r + 1) * (L / 2 ^ (r + 1)) = L := Nat.mul_div_cancel' hdvd
  have hinj : ∀ j k, j < L / 2 ^ (r + 1) → k < L / 2 ^ (r + 1) →
      (2 * j + 2) * 2 ^ r - 1 = (2 * k + 2) * 2 ^ r - 1 → j = k := by
    intro j k _ _ h
    have p1 : 0 < (2 * j + 2) * 2 ^ r := Nat.mul_pos (by omega) hs
    have p2 : 0 < (2 * k + 2) * 2 ^ r := Nat.mul_pos (by omega) hs
    have h1 : (2 * j + 2) * 2 ^ r = (2 * k + 2) * 2 ^ r := by omega
    have := Nat.eq_of_mul_eq_mul_right hs h1
    omega
  have hwr : ∀ j k, j < L / 2 ^ (r + 1) → k < L / 2 ^ (r + 1) →
      (2 * j + 2) * 2 ^ r - 1 ≠ (2 * k + 1) * 2 ^ r - 1 := by
    intro j k _ _ h
    have p1 : 0 < (2 * j + 2) * 2 ^ r := Nat.mul_pos (by omega) hs
    have p2 : 0 < (2 * k + 1) * 2 ^ r := Nat.mul_pos (by omega) hs
    have h1 : (2 * j + 2) * 2 ^ r = (2 * k + 1) * 2 ^ r := by omega
    have := Nat.eq_of_mul_eq_mul_right hs h1
    omega
  constructor
  · intro hd
    rcases hd with ⟨m, hm⟩
    have hm1 : 1 ≤ m := by
      rcases Nat.eq_zero_or_pos m with rfl | h
      · omega
      · exact h
    have hfac : 2 * (m - 1) + 2 = 2 * m := by omega
    have hprod : (2 * (m - 1) + 2) * 2 ^ r = p + 1 := by
      rw [hfac, hm, h2s]; ring
    have hub : 2 ^ r ≤ p := by
      have h1 : 2 * 2 ^ r ≤ (2 * (m - 1) + 2) * 2 ^ r :=
        Nat.mul_le_mul_right _ (by omega)
      omega
    have hprod2 : (2 * (m - 1) + 1) * 2 ^ r = p - 2 ^ r + 1 := by
      have h1 : (2 * (m - 1) + 1) * 2 ^ r + 2 ^ r = (2 * (m - 1) + 2) * 2 ^ r := by ring
      omega
    have hmc : m - 1 < L / 2 ^ (r + 1) := by
      have h1 : 2 ^ (r + 1) * m ≤ 2 ^ (r + 1) * (L / 2 ^ (r + 1)) := by
        rw [hLc, ← hm]; omega
      have h2 : m ≤ L / 2 ^ (r + 1) := Nat.le_of_mul_le_mul_left h1 (by positivity)
      -- m = L / 2^(r+1) would need p + 1 = L and that is fine; but then m-1 < m ≤ c
      omega
    have hres := foldRange_pair_written false
      (fun i => (2 * i + 2) * 2 ^ r - 1) (fun i => (2 * i + 1) * 2 ^ r - 1)
      (L / 2 ^ (r + 1)) hinj hwr (L / 2 ^ (r + 1)) 0 st (m - 1) (by omega)
      (by omega) (by omega)
      (by show (2 * (m - 1) + 2) * 2 ^ r - 1 < st.X.length; rw [hX]; omega)
      (by show (2 * (m - 1) + 2) * 2 ^ r - 1 < st.A.length; rw [hA]; omega)
    simp only [] at hres
    have hw : (2 * (m - 1) + 2) * 2 ^ r - 1 = p := by omega
    have hr : (2 * (m - 1) + 1) * 2 ^ r - 1 = p - 2 ^ r := by omega
    rw [hw, hr] at hres
    exact hres
  · intro hnd
    have hunt := foldRange_pair_untouched false
      (fun i => (2 * i + 2) * 2 ^ r - 1) (fun i => (2 * i + 1) * 2 ^ r - 1)
      (L / 2 ^ (r + 1)) 0 st p ?_
    · exact hunt
    · intro j _ _ hcon
      simp only [] at hcon
      apply hnd
      have pj : 0 < (2 * j + 2) * 2 ^ r := Nat.mul_pos (by omega) hs
      have h1 : (2 * j + 2) * 2 ^ r = p + 1 := by omega
      exact ⟨j + 1, by rw [h2s, ← h1]; ring⟩

lemma foldRange_shift (f : ℕ → ScanSt → ScanSt) :
    ∀ (c lo : ℕ) (st : ScanSt),
      foldRange f (lo + 1) c st = foldRange (fun i => f (i + 1)) lo c st := by
  intro c
  induction c with
  | zero => intro lo st; rfl
  | succ c ih =>
    intro lo st
    show foldRange f (lo + 1 + 1) c (f (lo + 1) st) = _
    rw [ih (lo + 1) (f (lo + 1) st)]
    rfl

lemma downRoundF_spec (L k : ℕ) (st : ScanSt) (hA : st.A.length = L) (hX : st.X.length = L)
    (hdvd : 2 ^ (k + 1) ∣ L) (p : ℕ) (hp : p < L) :
    ((2 ^ k ∣ p + 1 ∧ ¬ 2 ^ (k + 1) ∣ p + 1 ∧ p + 1 ≠ 2 ^ k) →
      lget (downRoundF L k st).X p = lget st.X p + lget st.A p * lget st.X (p - 2 ^ k) ∧
      lget (downRoundF L k st).A p = lget st.A (p - 2 ^ k) * lget st.A p) ∧
    (¬ (2 ^ k ∣ p + 1 ∧ ¬ 2 ^ (k + 1) ∣ p + 1 ∧ p + 1 ≠ 2 ^ k) →
      lget (downRoundF L k st).X p = lget st.X p ∧
      lget (downRoundF L k st).A p = lget st.A p) := by
  have hs : 0 < 2 ^ k := pow_pos (by norm_num) k
  have h2s : 2 ^ (k + 1) = 2 * 2 ^ k := by rw [pow_succ]; ring
  have hLc : 2 ^ (k + 1) * (L / 2 ^ (k + 1)) = L := Nat.mul_div_cancel' hdvd
  have hshift : downRoundF L k st =
      foldRange (fun i => pairComb true ((2 * i + 3) * 2 ^ k - 1) ((2 * i + 2) * 2 ^ k - 1))
        0 (L / 2 ^ (k + 1) - 1) st := by
    have h0 : downRoundF L k st =
        foldRange (fun i => downPairF (2 ^ k) (i + 1)) 0 (L / 2 ^ (k + 1) - 1) st :=
      foldRange_shift (downPairF (2 ^ k)) (L / 2 ^ (k + 1) - 1) 0 st
    rw [h0]
    have hfn : (fun i => downPairF (2 ^ k) (i + 1)) =
        (fun i => pairComb true ((2 * i + 3) * 2 ^ k - 1) ((2 * i + 2) * 2 ^ k - 1)) := by
      funext i
      rw [downPairF, show 2 * (i + 1) + 1 = 2 * i + 3 from by ring,
        show 2 * (i + 1) = 2 * i + 2 from by ring]
    rw [hfn]
  have hinj : ∀ j j', j < L / 2 ^ (k + 1) - 1 → j' < L / 2 ^ (k + 1) - 1 →
      (2 * j + 3) * 2 ^ k - 1 = (2 * j' + 3) * 2 ^ k - 1 → j = j' := by
    intro j j' _ _ h
    have p1 : 0 < (2 * j + 3) * 2 ^ k := Nat.mul_pos (by omega) hs
    have p2 : 0 < (2 * j' + 3) * 2 ^ k := Nat.mul_pos (by omega) hs
    have h1 : (2 * j + 3) * 2 ^ k = (2 * j' + 3) * 2 ^ k := by omega
    have := Nat.eq_of_mul_eq_mul_right hs h1
    omega
  have hwr : ∀ j j', j < L / 2 ^ (k + 1) - 1 → j' < L / 2 ^ (k + 1) - 1 →
      (2 * j + 3) * 2 ^ k - 1 ≠ (2 * j' + 2) * 2 ^ k - 1 := by
    intro j j' _ _ h
    have p1 : 0 < (2 * j + 3) * 2 ^ k := Nat.mul_pos (by omega) hs
    have p2 : 0 < (2 * j' + 2) * 2 ^ k := Nat.mul_pos (by omega) hs
    have h1 : (2 * j + 3) * 2 ^ k = (2 * j' + 2) * 2 ^ k := by omega
    have := Nat.eq_of_mul_eq_mul_right hs h1
    omega
  constructor
  · rintro ⟨⟨m, hm⟩, hnd2, hne⟩
    have hmodd : ¬ 2 ∣ m := by
      intro ⟨t, ht⟩
      exact hnd2 ⟨t, by rw [hm, ht, h2s]; ring⟩
    have hm3 : 3 ≤ m := by
      rcases Nat.lt_or_ge m 3 with h3 | h3
      · interval_cases m
        · omega
        · exact absurd (by omega : p + 1 = 2 ^ k) hne
        · exact absurd ⟨1, by omega⟩ hmodd
      · exact h3
    obtain ⟨j, hj⟩ : ∃ j, m = 2 * j + 3 := ⟨(m - 3) / 2, by omega⟩
    have hfac : (2 * j + 3) * 2 ^ k = p + 1 := by rw [← hj, mul_comm, ← hm]
    have hub : 2 ^ k ≤ p := by
      have h1 : 2 * 2 ^ k ≤ (2 * j + 3) * 2 ^ k := Nat.mul_le_mul_right _ (by omega)
      omega
    have hfac2 : (2 * j + 2) * 2 ^ k = p - 2 ^ k + 1 := by
      have h1 : (2 * j + 2) * 2 ^ k + 2 ^ k = (2 * j + 3) * 2 ^ k := by ring
      omega
    have hjc : j < L / 2 ^ (k + 1) - 1 := by
      have h1 : (2 * j + 3) * 2 ^ k ≤ 2 ^ (k + 1) * (L / 2 ^ (k + 1)) := by
        rw [hLc, hfac]; omega
      have h2 : (2 * j + 3) * 2 ^ k ≤ 2 * (L / 2 ^ (k + 1)) * 2 ^ k := by
        calc (2 * j + 3) * 2 ^ k ≤ 2 ^ (k + 1) * (L / 2 ^ (k + 1)) := h1
          _ = 2 * (L / 2 ^ (k + 1)) * 2 ^ k := by rw [h2s]; ring
      have h3 := Nat.le_of_mul_le_mul_right h2 hs
      omega
    have hres := foldRange_pair_written true
      (fun i => (2 * i + 3) * 2 ^ k - 1) (fun i => (2 * i + 2) * 2 ^ k - 1)
      (L / 2 ^ (k + 1) - 1) hinj hwr (L / 2 ^ (k + 1) - 1) 0 st j (by omega)
      (by omega) (by omega)
      (by show (2 * j + 3) * 2 ^ k - 1 < st.X.length; rw [hX]; omega)
      (by show (2 * j + 3) * 2 ^ k - 1 < st.A.length; rw [hA]; omega)
    simp only [] at hres
    have hw : (2 * j + 3) * 2 ^ k - 1 = p := by omega
    have hr : (2 * j + 2) * 2 ^ k - 1 = p - 2 ^ k := by omega
    rw [hw, hr] at hres
    rw [hshift]
    exact hres
  · intro hnd
    rw [hshift]
    have hunt := foldRange_pair_untouched true
      (fun i => (2 * i + 3) * 2 ^ k - 1) (fun i => (2 * i + 2) * 2 ^ k - 1)
      (L / 2 ^ (k + 1) - 1) 0 st p ?_
    · exact hunt
    · intro j _ _ hcon
      simp only [] at hcon
      apply hnd
      have pj : 0 < (2 * j + 3) * 2 ^ k := Nat.mul_pos (by omega) hs
      have h1 : (2 * j + 3) * 2 ^ k = p + 1 := by omega
      refine ⟨⟨2 * j + 3, by rw [mul_comm]; omega⟩, ?_, ?_⟩
      · rintro ⟨t, ht⟩
        have h2 : (2 * j + 3) * 2 ^ k = 2 * t * 2 ^ k := by
          rw [h1, ht, h2s]; ring
        have := Nat.eq_of_mul_eq_mul_right hs h2
        omega
      · intro hcon2
        have h2 : (2 * j + 3) * 2 ^ k = 1 * 2 ^ k := by rw [h1, hcon2]; ring
        have := Nat.eq_of_mul_eq_mul_right hs h2
        omega

lemma segX_one (A X : List ℚ) (lo : ℕ) : segX A X lo 1 = lget X lo := by
  show lget A (lo + 0) * segX A X lo 0 + lget X (lo + 0) = lget X lo
  rw [segX]
  ring_nf

lemma prodA_one (A : List ℚ) (lo : ℕ) : prodA A lo 1 = lget A lo := by
  show prodA A lo 0 * lget A (lo + 0) = lget A lo
  rw [prodA]
  ring_nf

lemma upRoundF_len (L r : ℕ) (st : ScanSt) :
    (upRoundF L r st).A.length = st.A.length ∧
    (upRoundF L r st).X.length = st.X.length :=
  foldRange_len _ (fun _ _ => ⟨pairComb_lenA _ _ _ _, pairComb_lenX _ _ _ _⟩) _ _ _

lemma downRoundF_len (L k : ℕ) (st : ScanSt) :
    (downRoundF L k st).A.length = st.A.length ∧
    (downRoundF L k st).X.length = st.X.length :=
  foldRange_len _ (fun _ _ => ⟨pairComb_lenA _ _ _ _, pairComb_lenX _ _ _ _⟩) _ _ _

lemma upSweepF_len (L : ℕ) : ∀ (r : ℕ) (st : ScanSt),
    (upSweepF L r st).A.length = st.A.length ∧
    (upSweepF L r st).X.length = st.X.length := by
  intro r
  induction r with
  | zero => intro st; exact ⟨rfl, rfl⟩
  | succ r ih =>
    intro st
    have h1 := ih st
    have h2 := upRoundF_len L r (upSweepF L r st)
    exact ⟨h2.1.trans h1.1, h2.2.trans h1.2⟩

lemma downSweepF_len (L : ℕ) : ∀ (m : ℕ) (st : ScanSt),
    (downSweepF L m st).A.length = st.A.length ∧
    (downSweepF L m st).X.length = st.X.length := by
  intro m
  induction m with
  | zero => intro st; exact ⟨rfl, rfl⟩
  | succ m ih =>
    intro st
    have h1 := downRoundF_len L m st
    have h2 := ih (downRoundF L m st)
    exact ⟨h2.1.trans h1.1, h2.2.trans h1.2⟩

/-- Invariant of the forward up-sweep: after `r` rounds every position `p`
holds the monoid combination of the block of width `2^min(v2(p+1), r)`
ending at `p`. -/
lemma upSweepF_inv (n : ℕ) (A X : List ℚ) (hA : A.length = 2 ^ n) (hX : X.length = 2 ^ n) :
    ∀ r, r + 2 ≤ n → ∀ p, p < 2 ^ n →
      lget (upSweepF (2 ^ n) r ⟨A, X⟩).X p =
        segX A X (p + 1 - 2 ^ min (v2 (p + 1)) r) (2 ^ min (v2 (p + 1)) r) ∧
      lget (upSweepF (2 ^ n) r ⟨A, X⟩).A p =
        prodA A (p + 1 - 2 ^ min (v2 (p + 1)) r) (2 ^ min (v2 (p + 1)) r) := by
  intro r
  induction r with
  | zero =>
    intro _ p hp
    show lget X p = _ ∧ lget A p = _
    rw [Nat.min_zero, pow_zero, Nat.add_sub_cancel, segX_one, prodA_one]
    exact ⟨rfl, rfl⟩
  | succ r ih =>
    intro hr p hp
    have hlen := upSweepF_len (2 ^ n) r ⟨A, X⟩
    have hdvdL : 2 ^ (r + 1) ∣ 2 ^ n := pow_dvd_pow 2 (by omega)
    have h2 : 2 ^ (r + 1) = 2 * 2 ^ r := by rw [pow_succ]; ring
    have hspec := upRoundF_spec (2 ^ n) r (upSweepF (2 ^ n) r ⟨A, X⟩)
      (hlen.1.trans hA) (hlen.2.trans hX) hdvdL p hp
    show lget (upRoundF (2 ^ n) r (upSweepF (2 ^ n) r ⟨A, X⟩)).X p = _ ∧
      lget (upRoundF (2 ^ n) r (upSweepF (2 ^ n) r ⟨A, X⟩)).A p = _
    by_cases hd : 2 ^ (r + 1) ∣ p + 1
    · obtain ⟨hXv, hAv⟩ := hspec.1 hd
      have hvge : r + 1 ≤ v2 (p + 1) := (v2_le_iff _ _ (by omega)).mp hd
      have hmin1 : min (v2 (p + 1)) (r + 1) = r + 1 := by omega
      have hminr : min (v2 (p + 1)) r = r := by omega
      have hple : 2 ^ (r + 1) ≤ p + 1 := Nat.le_of_dvd (by omega) hd
      have hq : p - 2 ^ r < 2 ^ n := by
        have := Nat.sub_le p (2 ^ r); omega
      have hvq : v2 (p - 2 ^ r + 1) = r := by
        have hv := v2_sub_pow (p + 1) r hd (by omega)
        rwa [show p + 1 - 2 ^ r = p - 2 ^ r + 1 from by omega] at hv
      obtain ⟨ihX, ihA⟩ := ih (by omega) p hp
      obtain ⟨ihXq, ihAq⟩ := ih (by omega) (p - 2 ^ r) hq
      rw [hminr] at ihX ihA
      rw [hvq, Nat.min_self] at ihXq ihAq
      rw [hXv, hAv, ihX, ihA, ihXq, ihAq, hmin1]
      have e1 : p - 2 ^ r + 1 - 2 ^ r = p + 1 - 2 ^ (r + 1) := by omega
      have e2 : p + 1 - 2 ^ (r + 1) + 2 ^ r = p + 1 - 2 ^ r := by omega
      have e3 : (2 : ℕ) ^ (r + 1) = 2 ^ r + 2 ^ r := by omega
      rw [e1]
      have hseg := segX_add A X (p + 1 - 2 ^ (r + 1)) (2 ^ r) (2 ^ r)
      have hprodd := prodA_add A (p + 1 - 2 ^ (r + 1)) (2 ^ r) (2 ^ r)
      rw [e2] at hseg hprodd
      rw [← e3] at hseg hprodd
      rw [hseg, hprodd]
      constructor
      · ring
      · ring
    · obtain ⟨hXv, hAv⟩ := hspec.2 hd
      have hvle : v2 (p + 1) ≤ r := by
        by_contra hcon
        exact hd ((v2_le_iff _ _ (by omega)).mpr (by omega))
      have hmin1 : min (v2 (p + 1)) (r + 1) = v2 (p + 1) := by omega
      have hminr : min (v2 (p + 1)) r = v2 (p + 1) := by omega
      obtain ⟨ihX, ihA⟩ := ih (by omega) p hp
      rw [hminr] at ihX ihA
      rw [hXv, hAv, ihX, ihA, hmin1]
      exact ⟨rfl, rfl⟩

/-- Invariant maintained by the forward down-sweep, parameterized by the
next stride exponent `k`: positions whose `p+1` is divisible by `2^k`
already hold the final prefix value `hval p`; the others still hold their
up-sweep block combination. -/
def DownInv (A X : List ℚ) (n k : ℕ) (st : ScanSt) : Prop :=
  st.A.length = 2 ^ n ∧ st.X.length = 2 ^ n ∧
  (∀ p, p < 2 ^ n → 2 ^ k ∣ p + 1 → lget st.X p = hval A X p) ∧
  (∀ p, p < 2 ^ n → ¬ 2 ^ k ∣ p + 1 →
    lget st.X p = segX A X (p + 1 - 2 ^ v2 (p + 1)) (2 ^ v2 (p + 1)) ∧
    lget st.A p = prodA A (p + 1 - 2 ^ v2 (p + 1)) (2 ^ v2 (p + 1)))

lemma baseFourF_lenA (s : ℕ) (st : ScanSt) : (baseFourF s st).A.length = st.A.length := by
  simp [baseFourF, pairComb]

lemma baseFourF_lenX (s : ℕ) (st : ScanSt) : (baseFourF s st).X.length = st.X.length := by
  simp [baseFourF, pairComb]

/-- After the up-sweep, the explicit 4-element base case (lines 44-48) and
the mid combine (lines 54-57) leave the array in the down-sweep invariant
for stride exponent `n-2`. -/
lemma baseMidF_inv (n : ℕ) (hn : 2 ≤ n) (A X : List ℚ)
    (hA : A.length = 2 ^ n) (hX : X.length = 2 ^ n) :
    DownInv A X n (n - 2)
      (midF (2 ^ (n - 2)) (baseFourF (2 ^ (n - 2)) (upSweepF (2 ^ n) (n - 2) ⟨A, X⟩))) := by
  have hs : 0 < 2 ^ (n - 2) := pow_pos (by norm_num) _
  have h4 : 2 ^ n = 4 * 2 ^ (n - 2) := by
    calc 2 ^ n = 2 ^ (n - 2 + 2) := by rw [Nat.sub_add_cancel hn]
      _ = 4 * 2 ^ (n - 2) := by rw [pow_add]; ring
  set stU := upSweepF (2 ^ n) (n - 2) ⟨A, X⟩ with hstU
  have hUlen := upSweepF_len (2 ^ n) (n - 2) ⟨A, X⟩
  have hUA : stU.A.length = 2 ^ n := hUlen.1.trans hA
  have hUX : stU.X.length = 2 ^ n := hUlen.2.trans hX
  have hU := upSweepF_inv n A X hA hX (n - 2) (by omega)
  -- values of the four active positions after the up-sweep
  have hval1 : lget stU.X (2 ^ (n - 2) - 1) = segX A X 0 (2 ^ (n - 2)) ∧
      lget stU.A (2 ^ (n - 2) - 1) = prodA A 0 (2 ^ (n - 2)) := by
    have h := hU (2 ^ (n - 2) - 1) (by omega)
    rw [show 2 ^ (n - 2) - 1 + 1 = 2 ^ (n - 2) from by omega, v2_two_pow,
      Nat.min_self, Nat.sub_self] at h
    exact h
  have hv2a : v2 (2 * 2 ^ (n - 2)) = n - 2 + 1 := by
    rw [show 2 * 2 ^ (n - 2) = 1 * 2 ^ (n - 2 + 1) from by rw [pow_succ]; ring]
    exact v2_mul_pow 1 _ (by norm_num) one_ne_zero
  have hv2b : v2 (4 * 2 ^ (n - 2)) = n - 2 + 2 := by
    rw [show 4 * 2 ^ (n - 2) = 1 * 2 ^ (n - 2 + 2) from by rw [pow_add]; ring]
    exact v2_mul_pow 1 _ (by norm_num) one_ne_zero
  have hval2 : lget stU.X (2 * 2 ^ (n - 2) - 1) = segX A X (2 ^ (n - 2)) (2 ^ (n - 2)) ∧
      lget stU.A (2 * 2 ^ (n - 2) - 1) = prodA A (2 ^ (n - 2)) (2 ^ (n - 2)) := by
    have h := hU (2 * 2 ^ (n - 2) - 1) (by omega)
    rw [show 2 * 2 ^ (n - 2) - 1 + 1 = 2 * 2 ^ (n - 2) from by omega, hv2a,
      show min (n - 2 + 1) (n - 2) = n - 2 from by omega,
      show 2 * 2 ^ (n - 2) - 2 ^ (n - 2) = 2 ^ (n - 2) from by omega] at h
    exact h
  have hval3 : lget stU.X (3 * 2 ^ (n - 2) - 1) = segX A X (2 * 2 ^ (n - 2)) (2 ^ (n - 2)) ∧
      lget stU.A (3 * 2 ^ (n - 2) - 1) = prodA A (2 * 2 ^ (n - 2)) (2 ^ (n - 2)) := by
    have h := hU (3 * 2 ^ (n - 2) - 1) (by omega)
    rw [show 3 * 2 ^ (n - 2) - 1 + 1 = 3 * 2 ^ (n - 2) from by omega,
      v2_mul_pow 3 (n - 2) (by norm_num) (by norm_num),
      Nat.min_self,
      show 3 * 2 ^ (n - 2) - 2 ^ (n - 2) = 2 * 2 ^ (n - 2) from by omega] at h
    exact h
  have hval4 : lget stU.X (4 * 2 ^ (n - 2) - 1) = segX A X (3 * 2 ^ (n - 2)) (2 ^ (n - 2)) ∧
      lget stU.A (4 * 2 ^ (n - 2) - 1) = prodA A (3 * 2 ^ (n - 2)) (2 ^ (n - 2)) := by
    have h := hU (4 * 2 ^ (n - 2) - 1) (by omega)
    rw [show 4 * 2 ^ (n - 2) - 1 + 1 = 4 * 2 ^ (n - 2) from by omega, hv2b,
      show min (n - 2 + 2) (n - 2) = n - 2 from by omega,
      show 4 * 2 ^ (n - 2) - 2 ^ (n - 2) = 3 * 2 ^ (n - 2) from by omega] at h
    exact h
  -- distinctness of the four indices
  have hne21 : 2 * 2 ^ (n - 2) - 1 ≠ 2 ^ (n - 2) - 1 := by omega
  have hne31 : 3 * 2 ^ (n - 2) - 1 ≠ 2 ^ (n - 2) - 1 := by omega
  have hne32 : 3 * 2 ^ (n - 2) - 1 ≠ 2 * 2 ^ (n - 2) - 1 := by omega
  have hne41 : 4 * 2 ^ (n - 2) - 1 ≠ 2 ^ (n - 2) - 1 := by omega
  have hne42 : 4 * 2 ^ (n - 2) - 1 ≠ 2 * 2 ^ (n - 2) - 1 := by omega
  have hne43 : 4 * 2 ^ (n - 2) - 1 ≠ 3 * 2 ^ (n - 2) - 1 := by omega
  -- the first base combine (lines 45-46)
  set st1 := pairComb false (2 * 2 ^ (n - 2) - 1) (2 ^ (n - 2) - 1) stU with hst1
  have h1A : st1.A.length = 2 ^ n := by rw [hst1, pairComb_lenA, hUA]
  have h1X : st1.X.length = 2 ^ n := by rw [hst1, pairComb_lenX, hUX]
  have hseg02 : segX A X (2 ^ (n - 2)) (2 ^ (n - 2)) +
      prodA A (2 ^ (n - 2)) (2 ^ (n - 2)) * segX A X 0 (2 ^ (n - 2)) =
      segX A X 0 (2 * 2 ^ (n - 2)) := by
    have h := segX_add A X 0 (2 ^ (n - 2)) (2 ^ (n - 2))
    rw [Nat.zero_add, show 2 ^ (n - 2) + 2 ^ (n - 2) = 2 * 2 ^ (n - 2) from by omega] at h
    rw [h]; ring
  have hprod02 : prodA A 0 (2 ^ (n - 2)) * prodA A (2 ^ (n - 2)) (2 ^ (n - 2)) =
      prodA A 0 (2 * 2 ^ (n - 2)) := by
    have h := prodA_add A 0 (2 ^ (n - 2)) (2 ^ (n - 2))
    rw [Nat.zero_add, show 2 ^ (n - 2) + 2 ^ (n - 2) = 2 * 2 ^ (n - 2) from by omega] at h
    rw [h]
  have h1X2 : lget st1.X (2 * 2 ^ (n - 2) - 1) = segX A X 0 (2 * 2 ^ (n - 2)) := by
    rw [hst1, lget_pairComb_X, if_pos ⟨rfl, by omega⟩, hval2.1, hval1.1, hval2.2, ← hseg02]
  have h1A2 : lget st1.A (2 * 2 ^ (n - 2) - 1) = prodA A 0 (2 * 2 ^ (n - 2)) := by
    rw [hst1, lget_pairComb_A, if_pos ⟨rfl, by omega⟩, hval1.2, hval2.2, hprod02]
  -- the second base combine (line 48) writing position 4s-1
  set stB := baseFourF (2 ^ (n - 2)) stU with hstB
  have hBst1 : stB = ⟨st1.A,
      st1.X.set (4 * 2 ^ (n - 2) - 1)
        (lget st1.X (4 * 2 ^ (n - 2) - 1) +
          lget st1.A (4 * 2 ^ (n - 2) - 1) *
            (lget st1.X (3 * 2 ^ (n - 2) - 1) +
              lget st1.A (3 * 2 ^ (n - 2) - 1) * lget st1.X (2 * 2 ^ (n - 2) - 1)))⟩ := rfl
  have hBA : stB.A.length = 2 ^ n := by rw [hstB, baseFourF_lenA, hUA]
  have hBX : stB.X.length = 2 ^ n := by rw [hstB, baseFourF_lenX, hUX]
  have hB_at : ∀ p, p ≠ 4 * 2 ^ (n - 2) - 1 →
      lget stB.X p = lget st1.X p ∧ lget stB.A p = lget st1.A p := by
    intro p hp
    rw [hBst1]
    exact ⟨lget_set_ne _ _ _ _ hp, rfl⟩
  have hseg03 : segX A X (2 * 2 ^ (n - 2)) (2 ^ (n - 2)) +
      prodA A (2 * 2 ^ (n - 2)) (2 ^ (n - 2)) * segX A X 0 (2 * 2 ^ (n - 2)) =
      segX A X 0 (3 * 2 ^ (n - 2)) := by
    have h := segX_add A X 0 (2 * 2 ^ (n - 2)) (2 ^ (n - 2))
    rw [Nat.zero_add, show 2 * 2 ^ (n - 2) + 2 ^ (n - 2) = 3 * 2 ^ (n - 2) from by omega] at h
    rw [h]; ring
  have hB4 : lget stB.X (4 * 2 ^ (n - 2) - 1) = segX A X 0 (4 * 2 ^ (n - 2)) := by
    rw [hBst1]
    show lget (st1.X.set _ _) _ = _
    rw [lget_set_self _ _ _ (by omega)]
    have e1 : lget st1.X (4 * 2 ^ (n - 2) - 1) = segX A X (3 * 2 ^ (n - 2)) (2 ^ (n - 2)) := by
      rw [hst1, lget_pairComb_X, if_neg (fun hcon => hne42 hcon.1), hval4.1]
    have e2 : lget st1.A (4 * 2 ^ (n - 2) - 1) = prodA A (3 * 2 ^ (n - 2)) (2 ^ (n - 2)) := by
      rw [hst1, lget_pairComb_A, if_neg (fun hcon => hne42 hcon.1), hval4.2]
    have e3 : lget st1.X (3 * 2 ^ (n - 2) - 1) = segX A X (2 * 2 ^ (n - 2)) (2 ^ (n - 2)) := by
      rw [hst1, lget_pairComb_X, if_neg (fun hcon => hne32 hcon.1), hval3.1]
    have e4 : lget st1.A (3 * 2 ^ (n - 2) - 1) = prodA A (2 * 2 ^ (n - 2)) (2 ^ (n - 2)) := by
      rw [hst1, lget_pairComb_A, if_neg (fun hcon => hne32 hcon.1), hval3.2]
    rw [e1, e2, e3, e4, h1X2, hseg03]
    have h := segX_add A X 0 (3 * 2 ^ (n - 2)) (2 ^ (n - 2))
    rw [Nat.zero_add, show 3 * 2 ^ (n - 2) + 2 ^ (n - 2) = 4 * 2 ^ (n - 2) from by omega] at h
    rw [h]; ring
  -- the mid combine (lines 56-57) writing position 3s-1
  set stM := midF (2 ^ (n - 2)) stB with hstM
  have hMA : stM.A.length = 2 ^ n := by rw [hstM, midF, pairComb_lenA, hBA]
  have hMX : stM.X.length = 2 ^ n := by rw [hstM, midF, pairComb_lenX, hBX]
  have hM_at : ∀ p, p ≠ 3 * 2 ^ (n - 2) - 1 →
      lget stM.X p = lget stB.X p ∧ lget stM.A p = lget stB.A p := by
    intro p hp
    rw [hstM, midF]
    exact ⟨by rw [lget_pairComb_X, if_neg (fun hcon => hp hcon.1)],
      by rw [lget_pairComb_A, if_neg (fun hcon => hp hcon.1)]⟩
  have hM3 : lget stM.X (3 * 2 ^ (n - 2) - 1) = segX A X 0 (3 * 2 ^ (n - 2)) := by
    rw [hstM, midF, lget_pairComb_X, if_pos ⟨rfl, by omega⟩]
    have e3 := (hB_at (3 * 2 ^ (n - 2) - 1) hne43.symm).1
    have e4 := (hB_at (3 * 2 ^ (n - 2) - 1) hne43.symm).2
    have e5 := (hB_at (2 * 2 ^ (n - 2) - 1) hne42.symm).1
    rw [e3, e4, e5]
    have f3 : lget st1.X (3 * 2 ^ (n - 2) - 1) = segX A X (2 * 2 ^ (n - 2)) (2 ^ (n - 2)) := by
      rw [hst1, lget_pairComb_X, if_neg (fun hcon => hne32 hcon.1), hval3.1]
    have f4 : lget st1.A (3 * 2 ^ (n - 2) - 1) = prodA A (2 * 2 ^ (n - 2)) (2 ^ (n - 2)) := by
      rw [hst1, lget_pairComb_A, if_neg (fun hcon => hne32 hcon.1), hval3.2]
    rw [f3, f4, h1X2, hseg03]
  -- assemble the invariant
  refine ⟨hMA, hMX, ?_, ?_⟩
  · intro p hp hdvd
    rcases hdvd with ⟨m, hm⟩
    have hm1 : 1 ≤ m := by
      rcases Nat.eq_zero_or_pos m with rfl | h
      · omega
      · exact h
    have hm4 : m ≤ 4 := by
      have : m * 2 ^ (n - 2) ≤ 4 * 2 ^ (n - 2) := by
        rw [mul_comm m (2 ^ (n - 2)), ← hm]; omega
      exact Nat.le_of_mul_le_mul_right this hs
    rw [hval_eq_segX]
    have hmc : m = 1 ∨ m = 2 ∨ m = 3 ∨ m = 4 := by omega
    rcases hmc with rfl | rfl | rfl | rfl
    · -- p = s - 1 : untouched everywhere
      have hp' : p = 2 ^ (n - 2) - 1 := by omega
      subst hp'
      rw [show 2 ^ (n - 2) - 1 + 1 = 2 ^ (n - 2) from by omega]
      rw [(hM_at _ (by omega)).1, (hB_at _ (by omega)).1, hst1,
        lget_pairComb_X, if_neg (fun hcon => hne21 hcon.1.symm), hval1.1]
    · have hp' : p = 2 * 2 ^ (n - 2) - 1 := by omega
      subst hp'
      rw [show 2 * 2 ^ (n - 2) - 1 + 1 = 2 * 2 ^ (n - 2) from by omega]
      rw [(hM_at _ hne32.symm).1, (hB_at _ hne42.symm).1, h1X2]
    · have hp' : p = 3 * 2 ^ (n - 2) - 1 := by omega
      subst hp'
      rw [show 3 * 2 ^ (n - 2) - 1 + 1 = 3 * 2 ^ (n - 2) from by omega]
      exact hM3
    · have hp' : p = 4 * 2 ^ (n - 2) - 1 := by omega
      subst hp'
      rw [show 4 * 2 ^ (n - 2) - 1 + 1 = 4 * 2 ^ (n - 2) from by omega]
      rw [(hM_at _ hne43).1, hB4]
  · intro p hp hnd
    have hv2lt : v2 (p + 1) < n - 2 := by
      by_contra hcon
      exact hnd ((v2_le_iff _ _ (by omega)).mpr (by omega))
    have hndall : ∀ m, 1 ≤ m → m ≤ 4 → p ≠ m * 2 ^ (n - 2) - 1 := by
      intro m hm1 hm4 hcon
      apply hnd
      have hpos : 0 < m * 2 ^ (n - 2) := Nat.mul_pos (by omega) hs
      refine ⟨m, ?_⟩
      rw [mul_comm]
      omega
    have hstep1 : lget stM.X p = lget stU.X p ∧ lget stM.A p = lget stU.A p := by
      have e1 := hM_at p (hndall 3 (by norm_num) (by norm_num))
      have e2 := hB_at p (hndall 4 (by norm_num) (by norm_num))
      have e3 : lget st1.X p = lget stU.X p := by
        rw [hst1, lget_pairComb_X, if_neg (fun hcon => hndall 2 (by norm_num) (by norm_num) hcon.1)]
      have e4 : lget st1.A p = lget stU.A p := by
        rw [hst1, lget_pairComb_A, if_neg (fun hcon => hndall 2 (by norm_num) (by norm_num) hcon.1)]
      exact ⟨e1.1.trans (e2.1.trans e3), e1.2.trans (e2.2.trans e4)⟩
    have h := hU p hp
    rw [show min (v2 (p + 1)) (n - 2) = v2 (p + 1) from by omega] at h
    rw [hstep1.1, hstep1.2]
    exact h

/-- One forward down-sweep round advances the invariant from stride
exponent `k+1` to `k`. -/
lemma downRound_step (n k : ℕ) (hk : k + 1 ≤ n - 2) (hn : 2 ≤ n) (A X : List ℚ)
    (st : ScanSt) (hinv : DownInv A X n (k + 1) st) :
    DownInv A X n k (downRoundF (2 ^ n) k st) := by
  obtain ⟨hlA, hlX, hi, hii⟩ := hinv
  have hs : 0 < 2 ^ k := pow_pos (by norm_num) k
  have h2 : (2 : ℕ) ^ (k + 1) = 2 * 2 ^ k := by rw [pow_succ]; ring
  have hdvdL : 2 ^ (k + 1) ∣ 2 ^ n := pow_dvd_pow 2 (by omega)
  have hlen := downRoundF_len (2 ^ n) k st
  refine ⟨hlen.1.trans hlA, hlen.2.trans hlX, ?_, ?_⟩
  · intro p hp hdvd
    have hspec := downRoundF_spec (2 ^ n) k st hlA hlX hdvdL p hp
    by_cases hd1 : 2 ^ (k + 1) ∣ p + 1
    · rw [(hspec.2 (fun hcon => hcon.2.1 hd1)).1]
      exact hi p hp hd1
    · by_cases hd2 : p + 1 = 2 ^ k
      · rw [(hspec.2 (fun hcon => hcon.2.2 hd2)).1]
        obtain ⟨hXv, _⟩ := hii p hp hd1
        have hv : v2 (p + 1) = k := by rw [hd2, v2_two_pow]
        rw [hXv, hv, hval_eq_segX, hd2, Nat.sub_self]
      · obtain ⟨hXv, _⟩ := hspec.1 ⟨hdvd, hd1, hd2⟩
        rw [hXv]
        obtain ⟨hXu, hAu⟩ := hii p hp hd1
        have hv : v2 (p + 1) = k := by
          have h1 : k ≤ v2 (p + 1) := (v2_le_iff _ _ (by omega)).mp hdvd
          have h2' : ¬ (k + 1 ≤ v2 (p + 1)) :=
            fun hcon => hd1 ((v2_le_iff _ _ (by omega)).mpr hcon)
          omega
        rw [hXu, hAu, hv]
        have hple : 2 ^ k ≤ p + 1 := Nat.le_of_dvd (by omega) hdvd
        have hpgt : 2 ^ k < p + 1 := lt_of_le_of_ne hple (fun hcon => hd2 hcon.symm)
        have hq : p - 2 ^ k < 2 ^ n := by omega
        have hqdvd : 2 ^ (k + 1) ∣ p - 2 ^ k + 1 := by
          rcases hdvd with ⟨m, hm⟩
          have hmodd : ¬ 2 ∣ m := by
            rintro ⟨t, ht⟩
            exact hd1 ⟨t, by rw [hm, ht, h2]; ring⟩
          obtain ⟨t, ht⟩ : ∃ t, m = 2 * t + 1 := ⟨m / 2, by omega⟩
          refine ⟨t, ?_⟩
          have e2 : p + 1 = 2 * 2 ^ k * t + 2 ^ k := by
            rw [hm, ht]; ring
          rw [h2]
          omega
        have hread := hi (p - 2 ^ k) hq hqdvd
        rw [hread]
        rw [hval_eq_segX, hval_eq_segX, show p - 2 ^ k + 1 = p + 1 - 2 ^ k from by omega]
        have hcomp := segX_add A X 0 (p + 1 - 2 ^ k) (2 ^ k)
        rw [Nat.zero_add, show p + 1 - 2 ^ k + 2 ^ k = p + 1 from by omega] at hcomp
        rw [hcomp]
        ring
  · intro p hp hnd
    have hspec := downRoundF_spec (2 ^ n) k st hlA hlX hdvdL p hp
    have hXA := hspec.2 (fun hcon => hnd hcon.1)
    rw [hXA.1, hXA.2]
    exact hii p hp (fun hcon => hnd (dvd_trans (pow_dvd_pow 2 (Nat.le_succ k)) hcon))

lemma downSweepF_inv (n : ℕ) (hn : 2 ≤ n) (A X : List ℚ) :
    ∀ (m : ℕ), m ≤ n - 2 → ∀ st, DownInv A X n m st →
      DownInv A X n 0 (downSweepF (2 ^ n) m st) := by
  intro m
  induction m with
  | zero => intro _ st h; exact h
  | succ m ih =>
    intro hm st h
    show DownInv A X n 0 (downSweepF (2 ^ n) m (downRoundF (2 ^ n) m st))
    exact ih (by omega) _ (downRound_step n m (by omega) hn A X st h)

/-- Correctness of the in-place parallel scan `PScan.pscan` on power-of-two
lengths `2^n`, `n ≥ 2`: it terminates normally and the `X` buffer holds the
complete prefix-state sequence of the recurrence. -/
theorem pscan_correct (n : ℕ) (hn : 2 ≤ n) (A X : List ℚ)
    (hA : A.length = 2 ^ n) (hX : X.length = 2 ^ n) :
    ∃ st : ScanSt, pscanModel A X = some st ∧ st.A.length = 2 ^ n ∧
      st.X.length = 2 ^ n ∧ ∀ p, p < 2 ^ n → lget st.X p = hval A X p := by
  have hs : 0 < 2 ^ (n - 2) := pow_pos (by norm_num) _
  have h4 : 2 ^ n = 4 * 2 ^ (n - 2) := by
    calc 2 ^ n = 2 ^ (n - 2 + 2) := by rw [Nat.sub_add_cancel hn]
      _ = 4 * 2 ^ (n - 2) := by rw [pow_add]; ring
  have hT : (2 : ℕ) ^ n / 2 ^ (n - 2) = 4 := by
    rw [h4, Nat.mul_div_cancel _ hs]
  have heq : pscanModel A X =
      some (downSweepF (2 ^ n) (n - 2)
        (midF (2 ^ (n - 2)) (baseFourF (2 ^ (n - 2)) (upSweepF (2 ^ n) (n - 2) ⟨A, X⟩)))) := by
    unfold pscanModel
    rw [hA]
    dsimp only
    rw [log2M_pow, hT]
    norm_num
  obtain ⟨ilA, ilX, hi, _⟩ :=
    downSweepF_inv n hn A X (n - 2) le_rfl _ (baseMidF_inv n hn A X hA hX)
  refine ⟨_, heq, ilA, ilX, ?_⟩
  intro p hp
  exact hi p hp (by simpa using one_dvd (p + 1))

/-! Bridging lemmas: reads of padded, truncated and extensionally equal
lists, and invariance of the recurrence under zero padding. -/

lemma lget_append_lt (l r : List ℚ) (t : ℕ) (ht : t < l.length) :
    lget (l ++ r) t = lget l t := by
  unfold lget
  rw [List.getD_eq_getElem?_getD, List.getD_eq_getElem?_getD, List.getElem?_append_left ht]

lemma lget_take (l : List ℚ) (n t : ℕ) (ht : t < n) :
    lget (l.take n) t = lget l t := by
  unfold lget
  rw [List.getD_eq_getElem?_getD, List.getD_eq_getElem?_getD, List.getElem?_take]
  simp [ht]

lemma lget_eq_getElem (l : List ℚ) (t : ℕ) (ht : t < l.length) :
    lget l t = l[t] := by
  unfold lget
  rw [List.getD_eq_getElem?_getD, List.getElem?_eq_getElem ht]
  rfl

lemma list_eq_of_lget (l1 l2 : List ℚ) (hlen : l1.length = l2.length)
    (h : ∀ t, t < l1.length → lget l1 t = lget l2 t) : l1 = l2 := by
  apply List.ext_getElem hlen
  intro t h1 h2
  rw [← lget_eq_getElem _ _ h1, ← lget_eq_getElem _ _ h2]
  exact h t h1

lemma padNpo2_length (l : List ℚ) : (padNpo2 l).length = npo2M l.length := by
  have := le_npo2M l.length
  simp [padNpo2]
  omega

lemma lget_padNpo2 (l : List ℚ) (t : ℕ) (ht : t < l.length) :
    lget (padNpo2 l) t = lget l t :=
  lget_append_lt _ _ _ ht

lemma hval_pad (A X : List ℚ) (hlen : A.length = X.length) :
    ∀ t, t < X.length → hval (padNpo2 A) (padNpo2 X) t = hval A X t := by
  intro t
  induction t with
  | zero =>
    intro ht
    show lget (padNpo2 X) 0 = lget X 0
    exact lget_padNpo2 _ _ (by omega)
  | succ m ih =>
    intro ht
    show lget (padNpo2 A) (m + 1) * hval (padNpo2 A) (padNpo2 X) m +
        lget (padNpo2 X) (m + 1) = lget A (m + 1) * hval A X m + lget X (m + 1)
    rw [ih (by omega), lget_padNpo2 _ _ (by omega), lget_padNpo2 _ _ (by omega)]

lemma seqScan_length (A X : List ℚ) : (seqScan A X).length = min A.length X.length :=
  seqScanGo_length A X 0

lemma pscan_one (A X : List ℚ) (hA : A.length = 1) :
    pscanModel A X = some ⟨A, X⟩ := by
  unfold pscanModel
  rw [hA]
  dsimp only
  norm_num [show log2M 1 = 0 from rfl]
  rfl

/-- Correctness of one lane of `PScan.forward` for every length except the
faulting `L = 2`: the padded, scanned, truncated output is exactly the
sequential reference recurrence. -/
theorem forward_correct (A X : List ℚ) (hlen : A.length = X.length)
    (hpos : 0 < X.length) (hne2 : X.length ≠ 2) :
    forwardModel A X = some (seqScan A X) := by
  by_cases hpad : X.length = npo2M X.length
  · -- the length is already a power of two: the tensors are only cloned
    have hc : X.length = 2 ^ clog2M X.length := hpad
    have hcne1 : clog2M X.length ≠ 1 := by
      intro hcon
      rw [hcon] at hc
      exact hne2 (by simpa using hc)
    rcases Nat.eq_zero_or_pos (clog2M X.length) with hc0 | hcpos
    · -- L = 1
      have hL1 : X.length = 1 := by rw [hc, hc0]; rfl
      have hps := pscan_one A X (hlen.trans hL1)
      have heq : forwardModel A X = some (X.take X.length) := by
        unfold forwardModel forwardCtx
        dsimp only
        rw [if_pos hpad, if_pos hpad, hps]
      rw [heq, List.take_length]
      refine congrArg _ (list_eq_of_lget _ _ ?_ ?_).symm
      · rw [seqScan_length, hlen, Nat.min_self]
      · intro t ht
        rw [seqScan_length, hlen, Nat.min_self, hL1] at ht
        interval_cases t
        rw [seqScan_eq_hval A X 0 (by omega) (by omega)]
        rfl
    · -- L = 2^n with n ≥ 2
      have hn2 : 2 ≤ clog2M X.length := by omega
      obtain ⟨st, hps, hlA, hlX, hv⟩ :=
        pscan_correct (clog2M X.length) hn2 A X (hlen.trans hc) hc
      have heq : forwardModel A X = some (st.X.take X.length) := by
        unfold forwardModel forwardCtx
        dsimp only
        rw [if_pos hpad, if_pos hpad, hps]
      rw [heq]
      refine congrArg _ (list_eq_of_lget _ _ ?_ ?_)
      · rw [List.length_take, seqScan_length, hlen, Nat.min_self, hlX, ← hc,
          Nat.min_self]
      · intro t ht
        rw [List.length_take, hlX, ← hc, Nat.min_self] at ht
        rw [lget_take _ _ _ ht, hv t (by omega),
          seqScan_eq_hval A X t (by omega) (by omega)]
  · -- the length is padded up to the next power of two
    have hlt : X.length < npo2M X.length := lt_of_le_of_ne (le_npo2M _) hpad
    have hge3 : 3 ≤ X.length := by
      have h1 : npo2M 1 = 1 := by
        rw [npo2M, clog2M_eq, Nat.clog_one_right]
        norm_num
      by_contra hcon
      push_neg at hcon
      have hc12 : X.length = 1 ∨ X.length = 2 := by omega
      rcases hc12 with h | h
      · rw [h] at hpad; exact hpad h1.symm
      · exact hne2 h
    have hcge2 : 2 ≤ clog2M X.length := by
      by_contra hcon
      have h1 : X.length ≤ 2 ^ 1 := by
        have h2 : Nat.clog 2 X.length ≤ 1 := by rw [← clog2M_eq]; omega
        exact (Nat.le_pow_iff_clog_le one_lt_two).mpr h2
      omega
    have hpA : (padNpo2 A).length = 2 ^ clog2M X.length := by
      rw [padNpo2_length, hlen]
      rfl
    have hpX : (padNpo2 X).length = 2 ^ clog2M X.length := by
      rw [padNpo2_length]
      rfl
    obtain ⟨st, hps, hlA, hlX, hv⟩ :=
      pscan_correct (clog2M X.length) hcge2 (padNpo2 A) (padNpo2 X) hpA hpX
    have heq : forwardModel A X = some (st.X.take X.length) := by
      unfold forwardModel forwardCtx
      dsimp only
      rw [if_neg hpad, if_neg hpad, hps]
    rw [heq]
    refine congrArg _ (list_eq_of_lget _ _ ?_ ?_)
    · rw [List.length_take, seqScan_length, hlen, Nat.min_self, hlX]
      have : X.length ≤ 2 ^ clog2M X.length := by rw [← npo2M]; exact le_npo2M _
      omega
    · intro t ht
      have htL : t < X.length := by
        rw [List.length_take] at ht
        omega
      rw [lget_take _ _ _ htL, hv t (by
          have : X.length ≤ 2 ^ clog2M X.length := by rw [← npo2M]; exact le_npo2M _
          omega),
        hval_pad A X hlen t htL, seqScan_eq_hval A X t (by omega) htL]

/-! Mirror-image segment algebra for the reverse scan: `prodR p c` is the
transition product over `[p, p+c)` and `segY p c` the suffix-combined
injection value of that block (the reverse recurrence accumulates from the
right end toward the front). -/

def prodR (A : List ℚ) : ℕ → ℕ → ℚ
  | _, 0 => 1
  | p, c + 1 => lget A p * prodR A (p + 1) c

def segY (A X : List ℚ) : ℕ → ℕ → ℚ
  | _, 0 => 0
  | p, c + 1 => lget X p + lget A p * segY A X (p + 1) c

lemma prodR_add (A : List ℚ) :
    ∀ (c p c' : ℕ), prodR A p (c + c') = prodR A p c * prodR A (p + c) c' := by
  intro c
  induction c with
  | zero => intro p c'; simp [prodR]
  | succ m ih =>
    intro p c'
    rw [show m + 1 + c' = (m + c') + 1 from by omega]
    show lget A p * prodR A (p + 1) (m + c') = _
    rw [ih (p + 1) c']
    show _ = lget A p * prodR A (p + 1) m * prodR A (p + (m + 1)) c'
    rw [show p + (m + 1) = p + 1 + m from by omega]
    ring

lemma segY_add (A X : List ℚ) :
    ∀ (c p c' : ℕ), segY A X p (c + c') =
      segY A X p c + prodR A p c * segY A X (p + c) c' := by
  intro c
  induction c with
  | zero => intro p c'; simp [segY, prodR]
  | succ m ih =>
    intro p c'
    rw [show m + 1 + c' = (m + c') + 1 from by omega]
    show lget X p + lget A p * segY A X (p + 1) (m + c') = _
    rw [ih (p + 1) c']
    show _ = (lget X p + lget A p * segY A X (p + 1) m) +
      lget A p * prodR A (p + 1) m * segY A X (p + (m + 1)) c'
    rw [show p + (m + 1) = p + 1 + m from by omega]
    ring

/-- 2-adic valuation of a reverse-scan position inside an array of length
`2^n`; position 0 stays active through every round, like the top valuation. -/
def v2R (n p : ℕ) : ℕ := if p = 0 then n else v2 p

lemma upRoundR_spec (L r : ℕ) (st : ScanSt) (hA : st.A.length = L) (hX : st.X.length = L)
    (hdvd : 2 ^ (r + 1) ∣ L) (p : ℕ) (hp : p < L) :
    (2 ^ (r + 1) ∣ p →
      lget (upRoundR L r st).X p = lget st.X p + lget st.A p * lget st.X (p + 2 ^ r) ∧
      lget (upRoundR L r st).A p = lget st.A (p + 2 ^ r) * lget st.A p) ∧
    (¬ 2 ^ (r + 1) ∣ p →
      lget (upRoundR L r st).X p = lget st.X p ∧
      lget (upRoundR L r st).A p = lget st.A p) := by
  have hs : 0 < 2 ^ r := pow_pos (by norm_num) r
  have h2s : 2 ^ (r + 1) = 2 * 2 ^ r := by rw [pow_succ]; ring
  have hLc : 2 ^ (r + 1) * (L / 2 ^ (r + 1)) = L := Nat.mul_div_cancel' hdvd
  have hinj : ∀ j k, j < L / 2 ^ (r + 1) → k < L / 2 ^ (r + 1) →
      2 * j * 2 ^ r = 2 * k * 2 ^ r → j = k := by
    intro j k _ _ h
    have := Nat.eq_of_mul_eq_mul_right hs h
    omega
  have hwr : ∀ j k, j < L / 2 ^ (r + 1) → k < L / 2 ^ (r + 1) →
      2 * j * 2 ^ r ≠ (2 * k + 1) * 2 ^ r := by
    intro j k _ _ h
    have := Nat.eq_of_mul_eq_mul_right hs h
    omega
  constructor
  · intro hd
    rcases hd with ⟨m, hm⟩
    have hprod : 2 * m * 2 ^ r = p := by rw [hm, h2s]; ring
    have hprod2 : (2 * m + 1) * 2 ^ r = p + 2 ^ r := by
      have h1 : (2 * m + 1) * 2 ^ r = 2 * m * 2 ^ r + 2 ^ r := by ring
      omega
    have hmc : m < L / 2 ^ (r + 1) := by
      have h1 : 2 ^ (r + 1) * m < 2 ^ (r + 1) * (L / 2 ^ (r + 1)) := by
        rw [hLc, ← hm]; omega
      exact Nat.lt_of_mul_lt_mul_left h1
    have hres := foldRange_pair_written false
      (fun i => 2 * i * 2 ^ r) (fun i => (2 * i + 1) * 2 ^ r)
      (L / 2 ^ (r + 1)) hinj hwr (L / 2 ^ (r + 1)) 0 st m (by omega)
      (by omega) (by omega)
      (by show 2 * m * 2 ^ r < st.X.length; rw [hX]; omega)
      (by show 2 * m * 2 ^ r < st.A.length; rw [hA]; omega)
    simp only [] at hres
    rw [hprod, hprod2] at hres
    exact hres
  · intro hnd
    have hunt := foldRange_pair_untouched false
      (fun i => 2 * i * 2 ^ r) (fun i => (2 * i + 1) * 2 ^ r)
      (L / 2 ^ (r + 1)) 0 st p ?_
    · exact hunt
    · intro j _ _ hcon
      simp only [] at hcon
      exact hnd ⟨j, by rw [hcon, h2s]; ring⟩

lemma downRoundR_spec (L k : ℕ) (st : ScanSt) (hA : st.A.length = L) (hX : st.X.length = L)
    (hdvd : 2 ^ (k + 1) ∣ L) (p : ℕ) (hp : p < L) :
    ((2 ^ k ∣ p ∧ ¬ 2 ^ (k + 1) ∣ p ∧ p ≠ L - 2 ^ k) →
      lget (downRoundR L k st).X p = lget st.X p + lget st.A p * lget st.X (p + 2 ^ k) ∧
      lget (downRoundR L k st).A p = lget st.A (p + 2 ^ k) * lget st.A p) ∧
    (¬ (2 ^ k ∣ p ∧ ¬ 2 ^ (k + 1) ∣ p ∧ p ≠ L - 2 ^ k) →
      lget (downRoundR L k st).X p = lget st.X p ∧
      lget (downRoundR L k st).A p = lget st.A p) := by
  have hs : 0 < 2 ^ k := pow_pos (by norm_num) k
  have h2s : 2 ^ (k + 1) = 2 * 2 ^ k := by rw [pow_succ]; ring
  have hLc : 2 ^ (k + 1) * (L / 2 ^ (k + 1)) = L := Nat.mul_div_cancel' hdvd
  have hinj : ∀ j j', j < L / 2 ^ (k + 1) - 1 → j' < L / 2 ^ (k + 1) - 1 →
      (2 * j + 1) * 2 ^ k = (2 * j' + 1) * 2 ^ k → j = j' := by
    intro j j' _ _ h
    have := Nat.eq_of_mul_eq_mul_right hs h
    omega
  have hwr : ∀ j j', j < L / 2 ^ (k + 1) - 1 → j' < L / 2 ^ (k + 1) - 1 →
      (2 * j + 1) * 2 ^ k ≠ (2 * j' + 2) * 2 ^ k := by
    intro j j' _ _ h
    have := Nat.eq_of_mul_eq_mul_right hs h
    omega
  constructor
  · rintro ⟨⟨m, hm⟩, hnd2, hne⟩
    have hmodd : ¬ 2 ∣ m := by
      rintro ⟨t, ht⟩
      exact hnd2 ⟨t, by rw [hm, ht, h2s]; ring⟩
    obtain ⟨j, hj⟩ : ∃ j, m = 2 * j + 1 := ⟨m / 2, by omega⟩
    have hfac : (2 * j + 1) * 2 ^ k = p := by rw [← hj, mul_comm, ← hm]
    have hfac2 : (2 * j + 2) * 2 ^ k = p + 2 ^ k := by
      have h1 : (2 * j + 2) * 2 ^ k = (2 * j + 1) * 2 ^ k + 2 ^ k := by ring
      omega
    have hjc : j < L / 2 ^ (k + 1) - 1 := by
      have hple : p + 2 ^ k ≤ L := by
        have hd : 2 ^ k ∣ L := dvd_trans (pow_dvd_pow 2 (Nat.le_succ k)) hdvd
        rcases hd with ⟨c, hc⟩
        have hmc : m < c := by
          have : 2 ^ k * m < 2 ^ k * c := by rw [← hm, ← hc]; omega
          exact Nat.lt_of_mul_lt_mul_left this
        have : 2 ^ k * (m + 1) ≤ 2 ^ k * c := Nat.mul_le_mul_left _ (by omega)
        calc p + 2 ^ k = 2 ^ k * (m + 1) := by rw [hm]; ring
          _ ≤ 2 ^ k * c := this
          _ = L := hc.symm
      have hplt : p + 2 ^ k < L := by
        rcases Nat.lt_or_ge (p + 2 ^ k) L with h | h
        · exact h
        · exact absurd (by omega : p = L - 2 ^ k) hne
      have h1 : (2 * j + 2) * 2 ^ k < 2 ^ (k + 1) * (L / 2 ^ (k + 1)) := by
        rw [hLc, hfac2]; omega
      have h2 : (2 * j + 2) * 2 ^ k < 2 * (L / 2 ^ (k + 1)) * 2 ^ k := by
        calc (2 * j + 2) * 2 ^ k < 2 ^ (k + 1) * (L / 2 ^ (k + 1)) := h1
          _ = 2 * (L / 2 ^ (k + 1)) * 2 ^ k := by rw [h2s]; ring
      have h3 := Nat.lt_of_mul_lt_mul_right h2
      omega
    have hres := foldRange_pair_written false
      (fun i => (2 * i + 1) * 2 ^ k) (fun i => (2 * i + 2) * 2 ^ k)
      (L / 2 ^ (k + 1) - 1) hinj hwr (L / 2 ^ (k + 1) - 1) 0 st j (by omega)
      (by omega) (by omega)
      (by show (2 * j + 1) * 2 ^ k < st.X.length; rw [hX]; omega)
      (by show (2 * j + 1) * 2 ^ k < st.A.length; rw [hA]; omega)
    simp only [] at hres
    rw [hfac, hfac2] at hres
    exact hres
  · intro hnd
    have hunt := foldRange_pair_untouched false
      (fun i => (2 * i + 1) * 2 ^ k) (fun i => (2 * i + 2) * 2 ^ k)
      (L / 2 ^ (k + 1) - 1) 0 st p ?_
    · exact hunt
    · intro j _ hjc hcon
      simp only [] at hcon
      apply hnd
      refine ⟨⟨2 * j + 1, by rw [mul_comm]; omega⟩, ?_, ?_⟩
      · rintro ⟨t, ht⟩
        have h2 : (2 * j + 1) * 2 ^ k = 2 * t * 2 ^ k := by
          rw [← hcon, ht, h2s]; ring
        have := Nat.eq_of_mul_eq_mul_right hs h2
        omega
      · intro hcon2
        -- p = L - 2^k would be the excluded last pair
        have hLk : 2 ^ k ≤ L := by
          have := Nat.le_of_dvd (by omega) (dvd_trans (pow_dvd_pow 2 (Nat.le_succ k)) hdvd)
          omega
        have h1 : (2 * j + 1) * 2 ^ k + 2 ^ k = L := by omega
        have h2 : (2 * j + 2) * 2 ^ k = 2 ^ (k + 1) * (L / 2 ^ (k + 1)) := by
          rw [hLc, ← h1]; ring
        have h3 : (2 * j + 2) * 2 ^ k = 2 * (L / 2 ^ (k + 1)) * 2 ^ k := by
          rw [h2, h2s]; ring
        have h4 := Nat.eq_of_mul_eq_mul_right hs h3
        omega

lemma segY_one (A X : List ℚ) (p : ℕ) : segY A X p 1 = lget X p := by
  show lget X p + lget A p * segY A X (p + 1) 0 = lget X p
  rw [segY]
  ring

lemma prodR_one (A : List ℚ) (p : ℕ) : prodR A p 1 = lget A p := by
  show lget A p * prodR A (p + 1) 0 = lget A p
  rw [prodR]
  ring

lemma upRoundR_len (L r : ℕ) (st : ScanSt) :
    (upRoundR L r st).A.length = st.A.length ∧
    (upRoundR L r st).X.length = st.X.length :=
  foldRange_len _ (fun _ _ => ⟨pairComb_lenA _ _ _ _, pairComb_lenX _ _ _ _⟩) _ _ _

lemma downRoundR_len (L k : ℕ) (st : ScanSt) :
    (downRoundR L k st).A.length = st.A.length ∧
    (downRoundR L k st).X.length = st.X.length :=
  foldRange_len _ (fun _ _ => ⟨pairComb_lenA _ _ _ _, pairComb_lenX _ _ _ _⟩) _ _ _

lemma upSweepR_len (L : ℕ) : ∀ (r : ℕ) (st : ScanSt),
    (upSweepR L r st).A.length = st.A.length ∧
    (upSweepR L r st).X.length = st.X.length := by
  intro r
  induction r with
  | zero => intro st; exact ⟨rfl, rfl⟩
  | succ r ih =>
    intro st
    have h1 := ih st
    have h2 := upRoundR_len L r (upSweepR L r st)
    exact ⟨h2.1.trans h1.1, h2.2.trans h1.2⟩

lemma downSweepR_len (L : ℕ) : ∀ (m : ℕ) (st : ScanSt),
    (downSweepR L m st).A.length = st.A.length ∧
    (downSweepR L m st).X.length = st.X.length := by
  intro m
  induction m with
  | zero => intro st; exact ⟨rfl, rfl⟩
  | succ m ih =>
    intro st
    have h1 := downRoundR_len L m st
    have h2 := ih (downRoundR L m st)
    exact ⟨h2.1.trans h1.1, h2.2.trans h1.2⟩

/-- Invariant of the reverse up-sweep: after `r` rounds every position `p`
holds the suffix combination of the block of width `2^min(v2R(p), r)`
starting at `p`. -/
lemma upSweepR_inv (n : ℕ) (A X : List ℚ) (hA : A.length = 2 ^ n) (hX : X.length = 2 ^ n) :
    ∀ r, r + 2 ≤ n → ∀ p, p < 2 ^ n →
      lget (upSweepR (2 ^ n) r ⟨A, X⟩).X p = segY A X p (2 ^ min (v2R n p) r) ∧
      lget (upSweepR (2 ^ n) r ⟨A, X⟩).A p = prodR A p (2 ^ min (v2R n p) r) := by
  intro r
  induction r with
  | zero =>
    intro _ p hp
    show lget X p = _ ∧ lget A p = _
    rw [Nat.min_zero, pow_zero, segY_one, prodR_one]
    exact ⟨rfl, rfl⟩
  | succ r ih =>
    intro hr p hp
    have hlen := upSweepR_len (2 ^ n) r ⟨A, X⟩
    have hdvdL : 2 ^ (r + 1) ∣ 2 ^ n := pow_dvd_pow 2 (by omega)
    have h2 : (2 : ℕ) ^ (r + 1) = 2 * 2 ^ r := by rw [pow_succ]; ring
    have hspec := upRoundR_spec (2 ^ n) r (upSweepR (2 ^ n) r ⟨A, X⟩)
      (hlen.1.trans hA) (hlen.2.trans hX) hdvdL p hp
    show lget (upRoundR (2 ^ n) r (upSweepR (2 ^ n) r ⟨A, X⟩)).X p = _ ∧
      lget (upRoundR (2 ^ n) r (upSweepR (2 ^ n) r ⟨A, X⟩)).A p = _
    by_cases hd : 2 ^ (r + 1) ∣ p
    · obtain ⟨hXv, hAv⟩ := hspec.1 hd
      have hvge : r + 1 ≤ v2R n p := by
        unfold v2R
        by_cases h0 : p = 0
        · rw [if_pos h0]; omega
        · rw [if_neg h0]; exact (v2_le_iff _ _ h0).mp hd
      have hmin1 : min (v2R n p) (r + 1) = r + 1 := by omega
      have hminr : min (v2R n p) r = r := by omega
      -- the partner position p + 2^r
      obtain ⟨m, hm⟩ := hd
      have hLdiv : 2 ^ (r + 1) * (2 ^ n / 2 ^ (r + 1)) = 2 ^ n :=
        Nat.mul_div_cancel' hdvdL
      have hmc : m < 2 ^ n / 2 ^ (r + 1) := by
        have h1 : 2 ^ (r + 1) * m < 2 ^ (r + 1) * (2 ^ n / 2 ^ (r + 1)) := by
          rw [hLdiv, ← hm]; omega
        exact Nat.lt_of_mul_lt_mul_left h1
      have hq : p + 2 ^ r < 2 ^ n := by
        have h1 : 2 ^ (r + 1) * (m + 1) ≤ 2 ^ (r + 1) * (2 ^ n / 2 ^ (r + 1)) :=
          Nat.mul_le_mul_left _ (by omega)
        rw [hLdiv] at h1
        have h2' : 2 ^ (r + 1) * (m + 1) = p + 2 ^ (r + 1) := by rw [hm]; ring
        omega
      have hqv : v2R n (p + 2 ^ r) = r := by
        have hq0 : p + 2 ^ r ≠ 0 := by
          have := pow_pos (show (0:ℕ) < 2 from by norm_num) r
          omega
        unfold v2R
        rw [if_neg hq0]
        have : p + 2 ^ r = (2 * m + 1) * 2 ^ r := by
          rw [show p = 2 ^ (r + 1) * m from hm, h2]; ring
        rw [this]
        exact v2_mul_pow _ _ (by omega) (by omega)
      obtain ⟨ihX, ihA⟩ := ih (by omega) p hp
      obtain ⟨ihXq, ihAq⟩ := ih (by omega) (p + 2 ^ r) hq
      rw [hminr] at ihX ihA
      rw [hqv, Nat.min_self] at ihXq ihAq
      rw [hXv, hAv, ihX, ihA, ihXq, ihAq, hmin1]
      have e3 : (2 : ℕ) ^ (r + 1) = 2 ^ r + 2 ^ r := by omega
      have hseg := segY_add A X (2 ^ r) p (2 ^ r)
      have hprodd := prodR_add A (2 ^ r) p (2 ^ r)
      rw [← e3] at hseg hprodd
      rw [hseg, hprodd]
      constructor
      · ring
      · ring
    · obtain ⟨hXv, hAv⟩ := hspec.2 hd
      have hp0 : p ≠ 0 := by
        intro h0
        exact hd (h0 ▸ dvd_zero _)
      have hvle : v2 p ≤ r := by
        by_contra hcon
        exact hd ((v2_le_iff _ _ hp0).mpr (by omega))
      have hv2R : v2R n p = v2 p := by unfold v2R; rw [if_neg hp0]
      have hmin1 : min (v2R n p) (r + 1) = v2 p := by omega
      have hminr : min (v2R n p) r = v2 p := by omega
      obtain ⟨ihX, ihA⟩ := ih (by omega) p hp
      rw [hminr] at ihX ihA
      rw [hXv, hAv, ihX, ihA, hmin1]
      exact ⟨rfl, rfl⟩

/-- Invariant maintained by the reverse down-sweep: positions divisible by
`2^k` hold the full suffix combination from `p` to the end; others still
hold their up-sweep block value. -/
def DownInvR (A X : List ℚ) (n k : ℕ) (st : ScanSt) : Prop :=
  st.A.length = 2 ^ n ∧ st.X.length = 2 ^ n ∧
  (∀ p, p < 2 ^ n → 2 ^ k ∣ p → lget st.X p = segY A X p (2 ^ n - p)) ∧
  (∀ p, p < 2 ^ n → ¬ 2 ^ k ∣ p →
    lget st.X p = segY A X p (2 ^ v2 p) ∧
    lget st.A p = prodR A p (2 ^ v2 p))

lemma baseFourR_lenA (s : ℕ) (st : ScanSt) : (baseFourR s st).A.length = st.A.length := by
  simp [baseFourR, pairComb]

lemma baseFourR_lenX (s : ℕ) (st : ScanSt) : (baseFourR s st).X.length = st.X.length := by
  simp [baseFourR, pairComb]

/-- After the reverse up-sweep, the explicit base case (lines 88-92) and mid
combine (lines 98-101) of `pscan_rev` establish the reverse down-sweep
invariant for stride exponent `n-2`. -/
lemma baseMidR_inv (n : ℕ) (hn : 2 ≤ n) (A X : List ℚ)
    (hA : A.length = 2 ^ n) (hX : X.length = 2 ^ n) :
    DownInvR A X n (n - 2)
      (midR (2 ^ (n - 2)) (baseFourR (2 ^ (n - 2)) (upSweepR (2 ^ n) (n - 2) ⟨A, X⟩))) := by
  have hs : 0 < 2 ^ (n - 2) := pow_pos (by norm_num) _
  have h4 : 2 ^ n = 4 * 2 ^ (n - 2) := by
    calc 2 ^ n = 2 ^ (n - 2 + 2) := by rw [Nat.sub_add_cancel hn]
      _ = 4 * 2 ^ (n - 2) := by rw [pow_add]; ring
  set stU := upSweepR (2 ^ n) (n - 2) ⟨A, X⟩ with hstU
  have hUlen := upSweepR_len (2 ^ n) (n - 2) ⟨A, X⟩
  have hUA : stU.A.length = 2 ^ n := hUlen.1.trans hA
  have hUX : stU.X.length = 2 ^ n := hUlen.2.trans hX
  have hU := upSweepR_inv n A X hA hX (n - 2) (by omega)
  have hv0 : v2R n 0 = n := by unfold v2R; rw [if_pos rfl]
  have hv1 : v2R n (2 ^ (n - 2)) = n - 2 := by
    unfold v2R
    rw [if_neg (by omega), v2_two_pow]
  have hv2' : v2R n (2 * 2 ^ (n - 2)) = n - 1 := by
    unfold v2R
    rw [if_neg (by omega),
      show 2 * 2 ^ (n - 2) = 1 * 2 ^ (n - 2 + 1) from by rw [pow_succ]; ring,
      v2_mul_pow 1 _ (by norm_num) one_ne_zero]
    omega
  have hv3 : v2R n (3 * 2 ^ (n - 2)) = n - 2 := by
    unfold v2R
    rw [if_neg (by omega), v2_mul_pow 3 _ (by norm_num) (by norm_num)]
  have hval0 : lget stU.X 0 = segY A X 0 (2 ^ (n - 2)) ∧
      lget stU.A 0 = prodR A 0 (2 ^ (n - 2)) := by
    have h := hU 0 (by omega)
    rwa [hv0, show min n (n - 2) = n - 2 from by omega] at h
  have hval1 : lget stU.X (2 ^ (n - 2)) = segY A X (2 ^ (n - 2)) (2 ^ (n - 2)) ∧
      lget stU.A (2 ^ (n - 2)) = prodR A (2 ^ (n - 2)) (2 ^ (n - 2)) := by
    have h := hU (2 ^ (n - 2)) (by omega)
    rwa [hv1, Nat.min_self] at h
  have hval2 : lget stU.X (2 * 2 ^ (n - 2)) = segY A X (2 * 2 ^ (n - 2)) (2 ^ (n - 2)) ∧
      lget stU.A (2 * 2 ^ (n - 2)) = prodR A (2 * 2 ^ (n - 2)) (2 ^ (n - 2)) := by
    have h := hU (2 * 2 ^ (n - 2)) (by omega)
    rwa [hv2', show min (n - 1) (n - 2) = n - 2 from by omega] at h
  have hval3 : lget stU.X (3 * 2 ^ (n - 2)) = segY A X (3 * 2 ^ (n - 2)) (2 ^ (n - 2)) ∧
      lget stU.A (3 * 2 ^ (n - 2)) = prodR A (3 * 2 ^ (n - 2)) (2 ^ (n - 2)) := by
    have h := hU (3 * 2 ^ (n - 2)) (by omega)
    rwa [hv3, Nat.min_self] at h
  -- block compositions
  have hseg22 : segY A X (2 * 2 ^ (n - 2)) (2 ^ (n - 2)) +
      prodR A (2 * 2 ^ (n - 2)) (2 ^ (n - 2)) * segY A X (3 * 2 ^ (n - 2)) (2 ^ (n - 2)) =
      segY A X (2 * 2 ^ (n - 2)) (2 * 2 ^ (n - 2)) := by
    have h := segY_add A X (2 ^ (n - 2)) (2 * 2 ^ (n - 2)) (2 ^ (n - 2))
    rw [show 2 * 2 ^ (n - 2) + 2 ^ (n - 2) = 3 * 2 ^ (n - 2) from by omega,
      show 2 ^ (n - 2) + 2 ^ (n - 2) = 2 * 2 ^ (n - 2) from by omega] at h
    rw [h]
  have hprod22 : prodR A (3 * 2 ^ (n - 2)) (2 ^ (n - 2)) *
      prodR A (2 * 2 ^ (n - 2)) (2 ^ (n - 2)) =
      prodR A (2 * 2 ^ (n - 2)) (2 * 2 ^ (n - 2)) := by
    have h := prodR_add A (2 ^ (n - 2)) (2 * 2 ^ (n - 2)) (2 ^ (n - 2))
    rw [show 2 * 2 ^ (n - 2) + 2 ^ (n - 2) = 3 * 2 ^ (n - 2) from by omega,
      show 2 ^ (n - 2) + 2 ^ (n - 2) = 2 * 2 ^ (n - 2) from by omega] at h
    rw [h]; ring
  have hseg13 : segY A X (2 ^ (n - 2)) (2 ^ (n - 2)) +
      prodR A (2 ^ (n - 2)) (2 ^ (n - 2)) * segY A X (2 * 2 ^ (n - 2)) (2 * 2 ^ (n - 2)) =
      segY A X (2 ^ (n - 2)) (3 * 2 ^ (n - 2)) := by
    have h := segY_add A X (2 ^ (n - 2)) (2 ^ (n - 2)) (2 * 2 ^ (n - 2))
    rw [show 2 ^ (n - 2) + 2 ^ (n - 2) = 2 * 2 ^ (n - 2) from by omega,
      show 2 ^ (n - 2) + 2 * 2 ^ (n - 2) = 3 * 2 ^ (n - 2) from by omega] at h
    rw [h]
  -- distinctness
  have hne20 : 2 * 2 ^ (n - 2) ≠ 0 := by omega
  have hne21 : 2 * 2 ^ (n - 2) ≠ 2 ^ (n - 2) := by omega
  have hne10 : 2 ^ (n - 2) ≠ 0 := by omega
  -- the first base combine (lines 89-90) writing position 2s
  set st1 := pairComb false (2 * 2 ^ (n - 2)) (3 * 2 ^ (n - 2)) stU with hst1
  have h1X2 : lget st1.X (2 * 2 ^ (n - 2)) =
      segY A X (2 * 2 ^ (n - 2)) (2 * 2 ^ (n - 2)) := by
    rw [hst1, lget_pairComb_X, if_pos ⟨rfl, by omega⟩, hval2.1, hval2.2, hval3.1, hseg22]
  have h1A2 : lget st1.A (2 * 2 ^ (n - 2)) =
      prodR A (2 * 2 ^ (n - 2)) (2 * 2 ^ (n - 2)) := by
    rw [hst1, lget_pairComb_A, if_pos ⟨rfl, by omega⟩, hval3.2, hval2.2, hprod22]
  have h1_at : ∀ p, p ≠ 2 * 2 ^ (n - 2) →
      lget st1.X p = lget stU.X p ∧ lget st1.A p = lget stU.A p := by
    intro p hp
    rw [hst1]
    exact ⟨by rw [lget_pairComb_X, if_neg (fun hcon => hp hcon.1)],
      by rw [lget_pairComb_A, if_neg (fun hcon => hp hcon.1)]⟩
  -- the second base combine (line 92) writing position 0
  set stB := baseFourR (2 ^ (n - 2)) stU with hstB
  have hBst1 : stB = ⟨st1.A,
      st1.X.set 0
        (lget st1.X 0 +
          lget st1.A 0 *
            (lget st1.X (2 ^ (n - 2)) +
              lget st1.A (2 ^ (n - 2)) * lget st1.X (2 * 2 ^ (n - 2))))⟩ := rfl
  have hBA : stB.A.length = 2 ^ n := by rw [hstB, baseFourR_lenA, hUA]
  have hBX : stB.X.length = 2 ^ n := by rw [hstB, baseFourR_lenX, hUX]
  have hB_at : ∀ p, p ≠ 0 →
      lget stB.X p = lget st1.X p ∧ lget stB.A p = lget st1.A p := by
    intro p hp
    rw [hBst1]
    exact ⟨lget_set_ne _ _ _ _ hp, rfl⟩
  have hB0 : lget stB.X 0 = segY A X 0 (2 ^ n) := by
    rw [hBst1]
    show lget (st1.X.set _ _) _ = _
    rw [lget_set_self _ _ _ (by rw [pairComb_lenX, hUX]; omega)]
    rw [(h1_at 0 hne20.symm).1, (h1_at 0 hne20.symm).2,
      (h1_at (2 ^ (n - 2)) hne21.symm).1, (h1_at (2 ^ (n - 2)) hne21.symm).2,
      h1X2, hval0.1, hval0.2, hval1.1, hval1.2, hseg13]
    have h := segY_add A X (2 ^ (n - 2)) 0 (3 * 2 ^ (n - 2))
    rw [Nat.zero_add, show 2 ^ (n - 2) + 3 * 2 ^ (n - 2) = 2 ^ n from by omega] at h
    rw [h]
  -- the mid combine (lines 100-101) writing position s
  set stM := midR (2 ^ (n - 2)) stB with hstM
  have hMA : stM.A.length = 2 ^ n := by rw [hstM, midR, pairComb_lenA, hBA]
  have hMX : stM.X.length = 2 ^ n := by rw [hstM, midR, pairComb_lenX, hBX]
  have hM_at : ∀ p, p ≠ 2 ^ (n - 2) →
      lget stM.X p = lget stB.X p ∧ lget stM.A p = lget stB.A p := by
    intro p hp
    rw [hstM, midR]
    exact ⟨by rw [lget_pairComb_X, if_neg (fun hcon => hp hcon.1)],
      by rw [lget_pairComb_A, if_neg (fun hcon => hp hcon.1)]⟩
  have hM1 : lget stM.X (2 ^ (n - 2)) = segY A X (2 ^ (n - 2)) (3 * 2 ^ (n - 2)) := by
    rw [hstM, midR, lget_pairComb_X, if_pos ⟨rfl, by omega⟩,
      (hB_at (2 ^ (n - 2)) hne10).1, (hB_at (2 ^ (n - 2)) hne10).2,
      (hB_at (2 * 2 ^ (n - 2)) hne20).1,
      (h1_at (2 ^ (n - 2)) hne21.symm).1, (h1_at (2 ^ (n - 2)) hne21.symm).2,
      h1X2, hval1.1, hval1.2, hseg13]
  -- assemble the invariant
  refine ⟨hMA, hMX, ?_, ?_⟩
  · intro p hp hdvd
    rcases hdvd with ⟨m, hm⟩
    have hm3 : m ≤ 3 := by
      have : 2 ^ (n - 2) * m < 2 ^ (n - 2) * 4 := by rw [← hm]; omega
      have := Nat.lt_of_mul_lt_mul_left this
      omega
    have hmc : m = 0 ∨ m = 1 ∨ m = 2 ∨ m = 3 := by omega
    rcases hmc with rfl | rfl | rfl | rfl
    · have hp' : p = 0 := by omega
      subst hp'
      rw [(hM_at 0 hne10.symm).1, hB0, Nat.sub_zero]
    · have hp' : p = 2 ^ (n - 2) := by omega
      subst hp'
      rw [hM1, show 2 ^ n - 2 ^ (n - 2) = 3 * 2 ^ (n - 2) from by omega]
    · have hp' : p = 2 * 2 ^ (n - 2) := by omega
      subst hp'
      rw [(hM_at _ hne21).1, (hB_at _ hne20).1, h1X2,
        show 2 ^ n - 2 * 2 ^ (n - 2) = 2 * 2 ^ (n - 2) from by omega]
    · have hp' : p = 3 * 2 ^ (n - 2) := by omega
      subst hp'
      rw [(hM_at _ (by omega)).1, (hB_at _ (by omega)).1,
        (h1_at _ (by omega)).1, hval3.1,
        show 2 ^ n - 3 * 2 ^ (n - 2) = 2 ^ (n - 2) from by omega]
  · intro p hp hnd
    have hp0 : p ≠ 0 := by
      intro h0
      exact hnd (h0 ▸ dvd_zero _)
    have hv2lt : v2 p < n - 2 := by
      by_contra hcon
      exact hnd ((v2_le_iff _ _ hp0).mpr (by omega))
    have hndall : ∀ m, p ≠ m * 2 ^ (n - 2) := by
      intro m hcon
      exact hnd ⟨m, by rw [hcon]; ring⟩
    have hstep1 : lget stM.X p = lget stU.X p ∧ lget stM.A p = lget stU.A p := by
      have e1 := hM_at p (by have := hndall 1; omega)
      have e2 := hB_at p hp0
      have e3 := h1_at p (hndall 2)
      exact ⟨e1.1.trans (e2.1.trans e3.1), e1.2.trans (e2.2.trans e3.2)⟩
    have h := hU p hp
    rw [show v2R n p = v2 p from by unfold v2R; rw [if_neg hp0],
      show min (v2 p) (n - 2) = v2 p from by omega] at h
    rw [hstep1.1, hstep1.2]
    exact h

/-- One reverse down-sweep round advances the invariant from stride
exponent `k+1` to `k`. -/
lemma downRoundR_step (n k : ℕ) (hk : k + 1 ≤ n - 2) (hn : 2 ≤ n) (A X : List ℚ)
    (st : ScanSt) (hinv : DownInvR A X n (k + 1) st) :
    DownInvR A X n k (downRoundR (2 ^ n) k st) := by
  obtain ⟨hlA, hlX, hi, hii⟩ := hinv
  have hs : 0 < 2 ^ k := pow_pos (by norm_num) k
  have h2 : (2 : ℕ) ^ (k + 1) = 2 * 2 ^ k := by rw [pow_succ]; ring
  have hdvdL : 2 ^ (k + 1) ∣ 2 ^ n := pow_dvd_pow 2 (by omega)
  have hlen := downRoundR_len (2 ^ n) k st
  have hkL : (2 : ℕ) ^ k ≤ 2 ^ n := pow_le_pow_right (by norm_num) (by omega)
  refine ⟨hlen.1.trans hlA, hlen.2.trans hlX, ?_, ?_⟩
  · intro p hp hdvd
    have hspec := downRoundR_spec (2 ^ n) k st hlA hlX hdvdL p hp
    by_cases hd1 : 2 ^ (k + 1) ∣ p
    · rw [(hspec.2 (fun hcon => hcon.2.1 hd1)).1]
      exact hi p hp hd1
    · have hp0 : p ≠ 0 := fun h0 => hd1 (h0 ▸ dvd_zero _)
      have hple : p + 2 ^ k ≤ 2 ^ n := by
        rcases hdvd with ⟨m, hm⟩
        obtain ⟨c, hc⟩ : 2 ^ k ∣ 2 ^ n := pow_dvd_pow 2 (by omega)
        have hmc : m < c := by
          have : 2 ^ k * m < 2 ^ k * c := by rw [← hm, ← hc]; omega
          exact Nat.lt_of_mul_lt_mul_left this
        calc p + 2 ^ k = 2 ^ k * (m + 1) := by rw [hm]; ring
          _ ≤ 2 ^ k * c := Nat.mul_le_mul_left _ (by omega)
          _ = 2 ^ n := hc.symm
      by_cases hd2 : p = 2 ^ n - 2 ^ k
      · rw [(hspec.2 (fun hcon => hcon.2.2 hd2)).1]
        obtain ⟨hXv, _⟩ := hii p hp hd1
        have hv : v2 p = k := by
          have h1 : k ≤ v2 p := (v2_le_iff _ _ hp0).mp hdvd
          have h2' : ¬ (k + 1 ≤ v2 p) := fun hcon => hd1 ((v2_le_iff _ _ hp0).mpr hcon)
          omega
        rw [hXv, hv, show 2 ^ n - p = 2 ^ k from by omega]
      · obtain ⟨hXv, _⟩ := hspec.1 ⟨hdvd, hd1, hd2⟩
        rw [hXv]
        obtain ⟨hXu, hAu⟩ := hii p hp hd1
        have hv : v2 p = k := by
          have h1 : k ≤ v2 p := (v2_le_iff _ _ hp0).mp hdvd
          have h2' : ¬ (k + 1 ≤ v2 p) := fun hcon => hd1 ((v2_le_iff _ _ hp0).mpr hcon)
          omega
        rw [hXu, hAu, hv]
        have hq : p + 2 ^ k < 2 ^ n := by omega
        have hqdvd : 2 ^ (k + 1) ∣ p + 2 ^ k := by
          rcases hdvd with ⟨m, hm⟩
          have hmodd : ¬ 2 ∣ m := by
            rintro ⟨t, ht⟩
            exact hd1 ⟨t, by rw [hm, ht, h2]; ring⟩
          obtain ⟨t, ht⟩ : ∃ t, m = 2 * t + 1 := ⟨m / 2, by omega⟩
          refine ⟨t + 1, ?_⟩
          rw [hm, ht, h2]
          ring
        have hread := hi (p + 2 ^ k) hq hqdvd
        rw [hread]
        have hcomp := segY_add A X (2 ^ k) p (2 ^ n - p - 2 ^ k)
        rw [show 2 ^ k + (2 ^ n - p - 2 ^ k) = 2 ^ n - p from by omega,
          show 2 ^ n - p - 2 ^ k = 2 ^ n - (p + 2 ^ k) from by omega] at hcomp
        rw [hcomp]
  · intro p hp hnd
    have hspec := downRoundR_spec (2 ^ n) k st hlA hlX hdvdL p hp
    have hXA := hspec.2 (fun hcon => hnd hcon.1)
    rw [hXA.1, hXA.2]
    exact hii p hp (fun hcon => hnd (dvd_trans (pow_dvd_pow 2 (Nat.le_succ k)) hcon))

lemma downSweepR_inv (n : ℕ) (hn : 2 ≤ n) (A X : List ℚ) :
    ∀ (m : ℕ), m ≤ n - 2 → ∀ st, DownInvR A X n m st →
      DownInvR A X n 0 (downSweepR (2 ^ n) m st) := by
  intro m
  induction m with
  | zero => intro _ st h; exact h
  | succ m ih =>
    intro hm st h
    show DownInvR A X n 0 (downSweepR (2 ^ n) m (downRoundR (2 ^ n) m st))
    exact ih (by omega) _ (downRoundR_step n m (by omega) hn A X st h)

/-- Correctness of the in-place mirrored scan `PScan.pscan_rev` on
power-of-two lengths `2^n`, `n ≥ 2`: it terminates normally and position
`p` of the `X` buffer holds the suffix combination from `p` to the end. -/
theorem pscanRev_correct (n : ℕ) (hn : 2 ≤ n) (A X : List ℚ)
    (hA : A.length = 2 ^ n) (hX : X.length = 2 ^ n) :
    ∃ st : ScanSt, pscanRevModel A X = some st ∧ st.A.length = 2 ^ n ∧
      st.X.length = 2 ^ n ∧ ∀ p, p < 2 ^ n → lget st.X p = segY A X p (2 ^ n - p) := by
  have hs : 0 < 2 ^ (n - 2) := pow_pos (by norm_num) _
  have h4 : 2 ^ n = 4 * 2 ^ (n - 2) := by
    calc 2 ^ n = 2 ^ (n - 2 + 2) := by rw [Nat.sub_add_cancel hn]
      _ = 4 * 2 ^ (n - 2) := by rw [pow_add]; ring
  have hT : (2 : ℕ) ^ n / 2 ^ (n - 2) = 4 := by
    rw [h4, Nat.mul_div_cancel _ hs]
  have heq : pscanRevModel A X =
      some (downSweepR (2 ^ n) (n - 2)
        (midR (2 ^ (n - 2)) (baseFourR (2 ^ (n - 2)) (upSweepR (2 ^ n) (n - 2) ⟨A, X⟩)))) := by
    unfold pscanRevModel
    rw [hA]
    dsimp only
    rw [log2M_pow, hT]
    norm_num
  obtain ⟨ilA, ilX, hi, _⟩ :=
    downSweepR_inv n hn A X (n - 2) le_rfl _ (baseMidR_inv n hn A X hA hX)
  refine ⟨_, heq, ilA, ilX, ?_⟩
  intro p hp
  exact hi p hp (by simpa using one_dvd p)

/-- The mathematical gradient of the recurrence `h_t = A_t h_{t-1} + X_t`,
`h_{-1} = 0`, with respect to the injection input `X_t`: if `G` is the
upstream gradient on the hidden states of a length-`L` sequence, then
`d loss / d X_t = ∑_{u=t}^{L-1} G_u · ∏_{v=t+1}^{u} A_v` (the product is
written as `∏ w ∈ [t, u), A_{w+1}`). -/
def gradBX (A G : List ℚ) (L t : ℕ) : ℚ :=
  ∑ u in Finset.Ico t L, lget G u * ∏ w in Finset.Ico t u, lget A (w + 1)

lemma lget_out (l : List ℚ) (u : ℕ) (h : l.length ≤ u) : lget l u = 0 := by
  unfold lget
  rw [List.getD_eq_getElem?_getD, List.getElem?_eq_none h]
  rfl

lemma lget_pad_eq (l : List ℚ) (u : ℕ) :
    lget (padNpo2 l) u = if u < l.length then lget l u else 0 := by
  by_cases h : u < l.length
  · rw [if_pos h, lget_padNpo2 _ _ h]
  · rw [if_neg h]
    by_cases h2 : u < (padNpo2 l).length
    · unfold padNpo2 at h2 ⊢
      unfold lget
      rw [List.getD_eq_getElem?_getD,
        List.getElem?_append_right (by omega), List.getElem?_replicate]
      rw [List.length_append, List.length_replicate] at h2
      rw [if_pos (by omega)]
      rfl
    · exact lget_out _ _ (by omega)

lemma lget_shift (l : List ℚ) (t : ℕ) :
    lget (l.drop 1 ++ [0]) t = if t + 1 < l.length then lget l (t + 1) else 0 := by
  by_cases h : t + 1 < l.length
  · rw [if_pos h]
    unfold lget
    rw [List.getD_eq_getElem?_getD, List.getD_eq_getElem?_getD,
      List.getElem?_append_left (by rw [List.length_drop]; omega),
      List.getElem?_drop]
    rw [show 1 + t = t + 1 from by omega]
  · rw [if_neg h]
    by_cases h2 : t < (l.drop 1 ++ [0]).length
    · unfold lget
      rw [List.getD_eq_getElem?_getD,
        List.getElem?_append_right (by rw [List.length_drop]; simp at h2; omega)]
      rw [List.length_append, List.length_drop, List.length_singleton] at h2
      rw [List.length_drop]
      rw [show t - (l.length - 1) = 0 from by omega]
      rfl
    · exact lget_out _ _ (by omega)

lemma segY_zero (A X : List ℚ) :
    ∀ (c p : ℕ), (∀ u, p ≤ u → u < p + c → lget X u = 0) → segY A X p c = 0 := by
  intro c
  induction c with
  | zero => intro p _; rfl
  | succ m ih =>
    intro p hz
    show lget X p + lget A p * segY A X (p + 1) m = 0
    rw [hz p le_rfl (by omega), ih (p + 1) (fun u hu1 hu2 => hz u (by omega) (by omega))]
    ring

lemma gradBX_succ (A G : List ℚ) (L t : ℕ) (ht : t < L) :
    gradBX A G L t = lget G t + lget A (t + 1) * gradBX A G L (t + 1) := by
  unfold gradBX
  rw [Finset.sum_eq_sum_Ico_succ_bot ht]
  rw [Finset.prod_Ico_eq_prod_range]
  simp only [Nat.sub_self, Finset.range_zero, Finset.prod_empty, mul_one]
  congr 1
  rw [Finset.mul_sum]
  apply Finset.sum_congr rfl
  intro u hu
  rw [Finset.mem_Ico] at hu
  rw [Finset.prod_eq_prod_Ico_succ_bot (by omega : t < u)]
  ring

/-- The reverse scan of the shifted transition array over the zero-padded
gradient computes the mathematical gradient `gradBX` on the original
positions. -/
lemma segY_shift_pad (A G : List ℚ) (L Lp : ℕ) (hL : L ≤ Lp)
    (Ain' Gp : List ℚ)
    (hAin : ∀ u, lget Ain' u = if u < L then lget A u else 0)
    (hGp : ∀ u, lget Gp u = if u < L then lget G u else 0)
    (hAlen : Ain'.length = Lp) :
    ∀ c t, L - t = c → t ≤ L → segY (Ain'.drop 1 ++ [0]) Gp t (Lp - t) = gradBX A G L t := by
  intro c
  induction c with
  | zero =>
    intro t hc htL
    have ht : t = L := by omega
    subst ht
    rw [segY_zero _ _ _ _ (fun u hu1 _ => by rw [hGp u, if_neg (by omega)])]
    unfold gradBX
    rw [Finset.Ico_self, Finset.sum_empty]
  | succ m ih =>
    intro t hc htL
    have ht : t < L := by omega
    have hsplit : Lp - t = (Lp - (t + 1)) + 1 := by omega
    rw [hsplit]
    show lget Gp t + lget (Ain'.drop 1 ++ [0]) t * segY _ Gp (t + 1) (Lp - (t + 1)) = _
    rw [ih (t + 1) (by omega) (by omega), hGp t, if_pos ht, lget_shift, hAlen,
      gradBX_succ A G L t ht]
    by_cases hlast : t + 1 < L
    · rw [if_pos (by omega), hAin, if_pos hlast]
    · have ht1 : t + 1 = L := by omega
      have hz : gradBX A G L (t + 1) = 0 := by
        unfold gradBX
        rw [ht1, Finset.Ico_self, Finset.sum_empty]
      rw [hz]
      by_cases hp : t + 1 < Lp
      · rw [if_pos hp, hAin, if_neg (by omega)]
        ring
      · rw [if_neg hp]
        ring

lemma pscanRev_one (A X : List ℚ) (hA : A.length = 1) :
    pscanRevModel A X = some ⟨A, X⟩ := by
  unfold pscanRevModel
  rw [hA]
  dsimp only
  norm_num [show log2M 1 = 0 from rfl]
  rfl

lemma lget_map_range (f : ℕ → ℚ) (n t : ℕ) (ht : t < n) :
    lget ((List.range n).map f) t = f t := by
  unfold lget
  rw [List.getD_eq_getElem?_getD, List.getElem?_map, List.getElem?_range ht]
  rfl

/-- The context really saved by one lane of `PScan.forward`: the original
`A_in` and the padded scanned buffer, whose valid positions hold the
prefix states. -/
theorem forwardCtx_correct (A X : List ℚ) (hlen : A.length = X.length)
    (hpos : 0 < X.length) (hne2 : X.length ≠ 2) :
    ∃ Xs, forwardCtx A X = some (A, Xs) ∧ Xs.length = npo2M X.length ∧
      ∀ t, t < X.length → lget Xs t = hval A X t := by
  by_cases hpad : X.length = npo2M X.length
  · have hc : X.length = 2 ^ clog2M X.length := hpad
    have hcne1 : clog2M X.length ≠ 1 := by
      intro hcon
      rw [hcon] at hc
      exact hne2 (by simpa using hc)
    rcases Nat.eq_zero_or_pos (clog2M X.length) with hc0 | hcpos
    · have hL1 : X.length = 1 := by rw [hc, hc0]; rfl
      have hps := pscan_one A X (hlen.trans hL1)
      refine ⟨X, ?_, by omega, ?_⟩
      · unfold forwardCtx
        dsimp only
        rw [if_pos hpad, if_pos hpad, hps]
      · intro t ht
        rw [hL1] at ht
        interval_cases t
        rfl
    · have hn2 : 2 ≤ clog2M X.length := by omega
      obtain ⟨st, hps, hlA, hlX, hv⟩ :=
        pscan_correct (clog2M X.length) hn2 A X (hlen.trans hc) hc
      refine ⟨st.X, ?_, by rw [hlX]; rfl, ?_⟩
      · unfold forwardCtx
        dsimp only
        rw [if_pos hpad, if_pos hpad, hps]
      · intro t ht
        exact hv t (by omega)
  · have hlt : X.length < npo2M X.length := lt_of_le_of_ne (le_npo2M _) hpad
    have hge3 : 3 ≤ X.length := by
      have h1 : npo2M 1 = 1 := by
        rw [npo2M, clog2M_eq, Nat.clog_one_right]
        norm_num
      by_contra hcon
      push_neg at hcon
      have hc12 : X.length = 1 ∨ X.length = 2 := by omega
      rcases hc12 with h | h
      · rw [h] at hpad; exact hpad h1.symm
      · exact hne2 h
    have hcge2 : 2 ≤ clog2M X.length := by
      by_contra hcon
      have h1 : X.length ≤ 2 ^ 1 := by
        have h2 : Nat.clog 2 X.length ≤ 1 := by rw [← clog2M_eq]; omega
        exact (Nat.le_pow_iff_clog_le one_lt_two).mpr h2
      omega
    have hpA : (padNpo2 A).length = 2 ^ clog2M X.length := by
      rw [padNpo2_length, hlen]
      rfl
    have hpX : (padNpo2 X).length = 2 ^ clog2M X.length := by
      rw [padNpo2_length]
      rfl
    obtain ⟨st, hps, hlA, hlX, hv⟩ :=
      pscan_correct (clog2M X.length) hcge2 (padNpo2 A) (padNpo2 X) hpA hpX
    have hLle : X.length ≤ 2 ^ clog2M X.length := le_npo2M _
    refine ⟨st.X, ?_, by rw [hlX]; rfl, ?_⟩
    · unfold forwardCtx
      dsimp only
      rw [if_neg hpad, if_neg hpad, hps]
    · intro t ht
      rw [hv t (by omega), hval_pad A X hlen t ht]

/-- Correctness of one lane of `PScan.backward` composed with the context
of `PScan.forward`, for every length except the faulting `L = 2`: the
returned pair is exactly the mathematical gradient of the recurrence — the
reverse-scanned upstream gradient for the injection input, and
`h_{t-1} * (reverse-scanned gradient)_t` (zero at `t = 0`) for the
transition input. -/
theorem backward_correct (A X G : List ℚ) (hAX : A.length = X.length)
    (hG : G.length = X.length) (hpos : 0 < X.length) (hne2 : X.length ≠ 2) :
    ∃ Xs Q Gx, forwardCtx A X = some (A, Xs) ∧
      backwardModel A Xs G = some (Q, Gx) ∧
      Q.length = X.length ∧ Gx.length = X.length ∧
      (∀ t, t < X.length → lget Gx t = gradBX A G X.length t) ∧
      (∀ t, t < X.length →
        lget Q t = if t = 0 then 0 else hval A X (t - 1) * gradBX A G X.length t) := by
  obtain ⟨Xs, hctx, hXslen, hXsval⟩ := forwardCtx_correct A X hAX hpos hne2
  have hLle : X.length ≤ npo2M X.length := le_npo2M _
  by_cases hpad : G.length = npo2M G.length
  · -- no padding: the length is already a power of two (and is not 2)
    have hpadX : X.length = npo2M X.length := by rw [← hG]; exact hpad
    have hc : X.length = 2 ^ clog2M X.length := hpadX
    have hcne1 : clog2M X.length ≠ 1 := by
      intro hcon
      rw [hcon] at hc
      exact hne2 (by simpa using hc)
    have hAin : ∀ u, lget A u = if u < X.length then lget A u else 0 := by
      intro u
      by_cases h : u < X.length
      · rw [if_pos h]
      · rw [if_neg h, lget_out _ _ (by omega)]
    have hGp : ∀ u, lget G u = if u < X.length then lget G u else 0 := by
      intro u
      by_cases h : u < X.length
      · rw [if_pos h]
      · rw [if_neg h, lget_out _ _ (by omega)]
    have hAshlen : (A.drop 1 ++ [0]).length = X.length := by
      rw [List.length_append, List.length_drop, List.length_singleton]
      omega
    have hscan : ∃ st : ScanSt, pscanRevModel (A.drop 1 ++ [0]) G = some st ∧
        st.X.length = X.length ∧
        ∀ t, t < X.length → lget st.X t = gradBX A G X.length t := by
      rcases Nat.eq_zero_or_pos (clog2M X.length) with hc0 | hcpos
      · have hL1 : X.length = 1 := by rw [hc, hc0]; rfl
        refine ⟨⟨A.drop 1 ++ [0], G⟩, pscanRev_one _ _ (by rw [hAshlen]; exact hL1),
          hG, ?_⟩
        intro t ht
        rw [hL1] at ht
        interval_cases t
        have h1 : lget G 0 = segY (A.drop 1 ++ [0]) G 0 (X.length - 0) := by
          rw [hL1]
          show lget G 0 = lget G 0 + lget (A.drop 1 ++ [0]) 0 * segY _ G (0 + 1) 0
          rw [segY]
          ring
        rw [h1, segY_shift_pad A G X.length X.length le_rfl A G hAin hGp hAX
          (X.length - 0) 0 rfl (by omega)]
      · have hn2 : 2 ≤ clog2M X.length := by omega
        obtain ⟨st, hps, hlA, hlX, hv⟩ :=
          pscanRev_correct (clog2M X.length) hn2 (A.drop 1 ++ [0]) G
            (by rw [hAshlen]; exact hc) (by rw [hG]; exact hc)
        refine ⟨st, hps, by rw [hlX]; exact hc.symm, ?_⟩
        intro t ht
        rw [hv t (by omega), ← hc,
          segY_shift_pad A G X.length X.length le_rfl A G hAin hGp hAX
            (X.length - t) t rfl (by omega)]
    obtain ⟨st, hps, hstlen, hstval⟩ := hscan
    refine ⟨Xs,
      ((List.range Xs.length).map
        (fun t => if t = 0 then 0 else lget Xs (t - 1) * lget st.X t)).take G.length,
      st.X.take G.length, hctx, ?_, ?_, ?_, ?_, ?_⟩
    · unfold backwardModel
      dsimp only
      rw [if_pos hpad, if_pos hpad, hps]
    · rw [List.length_take, List.length_map, List.length_range, hXslen, hG]
      omega
    · rw [List.length_take, hstlen, hG]
      omega
    · intro t ht
      rw [lget_take _ _ _ (by omega), hstval t ht]
    · intro t ht
      rw [lget_take _ _ _ (by omega),
        lget_map_range _ _ _ (by rw [hXslen]; omega)]
      by_cases h0 : t = 0
      · rw [if_pos h0, if_pos h0]
      · rw [if_neg h0, if_neg h0, hXsval (t - 1) (by omega), hstval t ht]
  · -- padded up to the next power of two
    have hpadX : ¬ X.length = npo2M X.length := by rw [← hG]; exact hpad
    have hlt : X.length < npo2M X.length := lt_of_le_of_ne hLle hpadX
    have hge3 : 3 ≤ X.length := by
      have h1 : npo2M 1 = 1 := by
        rw [npo2M, clog2M_eq, Nat.clog_one_right]
        norm_num
      by_contra hcon
      push_neg at hcon
      have hc12 : X.length = 1 ∨ X.length = 2 := by omega
      rcases hc12 with h | h
      · rw [h] at hpadX; exact hpadX h1.symm
      · exact hne2 h
    have hcge2 : 2 ≤ clog2M X.length := by
      by_contra hcon
      have h1 : X.length ≤ 2 ^ 1 := by
        have h2 : Nat.clog 2 X.length ≤ 1 := by rw [← clog2M_eq]; omega
        exact (Nat.le_pow_iff_clog_le one_lt_two).mpr h2
      omega
    have hAin : ∀ u, lget (padNpo2 A) u = if u < X.length then lget A u else 0 := by
      intro u
      rw [lget_pad_eq, hAX]
    have hGp : ∀ u, lget (padNpo2 G) u = if u < X.length then lget G u else 0 := by
      intro u
      rw [lget_pad_eq, hG]
    have hpAlen : (padNpo2 A).length = 2 ^ clog2M X.length := by
      rw [padNpo2_length, hAX]
      rfl
    have hAshlen : ((padNpo2 A).drop 1 ++ [0]).length = 2 ^ clog2M X.length := by
      rw [List.length_append, List.length_drop, List.length_singleton, hpAlen]
      have : 0 < 2 ^ clog2M X.length := pow_pos (by norm_num) _
      omega
    have hpGlen : (padNpo2 G).length = 2 ^ clog2M X.length := by
      rw [padNpo2_length, hG]
      rfl
    obtain ⟨st, hps, hlA, hlX, hv⟩ :=
      pscanRev_correct (clog2M X.length) hcge2 ((padNpo2 A).drop 1 ++ [0]) (padNpo2 G)
        hAshlen hpGlen
    have hLle2 : X.length ≤ 2 ^ clog2M X.length := hLle
    have hstval : ∀ t, t < X.length → lget st.X t = gradBX A G X.length t := by
      intro t ht
      rw [hv t (by omega),
        segY_shift_pad A G X.length (2 ^ clog2M X.length) hLle2 (padNpo2 A) (padNpo2 G)
          hAin hGp hpAlen (X.length - t) t rfl (by omega)]
    refine ⟨Xs,
      ((List.range Xs.length).map
        (fun t => if t = 0 then 0 else lget Xs (t - 1) * lget st.X t)).take G.length,
      st.X.take G.length, hctx, ?_, ?_, ?_, ?_, ?_⟩
    · unfold backwardModel
      dsimp only
      rw [if_neg hpad, if_neg hpad, hps]
    · rw [List.length_take, List.length_map, List.length_range, hXslen, hG]
      omega
    · rw [List.length_take, hlX, hG]
      omega
    · intro t ht
      rw [lget_take _ _ _ (by omega), hstval t ht]
    · intro t ht
      rw [lget_take _ _ _ (by omega),
        lget_map_range _ _ _ (by rw [hXslen]; omega)]
      by_cases h0 : t = 0
      · rw [if_pos h0, if_pos h0]
      · rw [if_neg h0, if_neg h0, hXsval (t - 1) (by omega), hstval t ht]

/-! ### Real-valued model of `MambaBlock` (`mamba.py`)

The block is modelled per batch element over the reals: an input sequence
is `x : ℕ → ℕ → ℝ` (time index, then channel index), weight tensors are
index functions, and every stage of `forward`/`ssm`/`step`/`ssm_step` is a
named definition translated line by line from the source. The batch path's
scan is taken in its sequential reference form (`selective_scan_seq`); the
parallel branch computes the same recurrence lane-wise, which is the
subject of the rational development above. Per the specification's §9, the
incremental cache's hidden state is kept at rank batch×channels×state: the
source's `h.squeeze(1)` is not modelled. -/

/-- Logistic sigmoid. -/
noncomputable def sigmoid (x : ℝ) : ℝ := 1 / (1 + Real.exp (-x))

/-- `F.silu(x) = x * sigmoid(x)`. -/
noncomputable def silu (x : ℝ) : ℝ := x * sigmoid x

/-- `F.softplus` with paddle's defaults `beta = 1, threshold = 20`: the
identity above the threshold, `log(1 + exp x)` below. -/
noncomputable def softplus (x : ℝ) : ℝ :=
  if 20 < x then x else Real.log (1 + Real.exp x)

/-- `RMSNorm.forward` (`mamba.py` lines 373-375) at one index of the last
axis (length `n`): `x * rsqrt(mean(square(x)) + eps) * weight`. -/
noncomputable def rmsnorm (n : ℕ) (eps : ℝ) (v w : ℕ → ℝ) (i : ℕ) : ℝ :=
  v i * (Real.sqrt ((∑ j in Finset.range n, v j ^ 2) / n + eps))⁻¹ * w i

/-- `nn.Linear` with `nin` input features: row `o` of the weight against
the input vector, plus the bias. -/
noncomputable def linApp (nin : ℕ) (w : ℕ → ℕ → ℝ) (b : ℕ → ℝ)
    (u : ℕ → ℝ) (o : ℕ) : ℝ :=
  (∑ j in Finset.range nin, w o j * u j) + b o

/-- The fields of `MambaConfig` (`mamba.py` lines 13-40) the block's
forward and step paths read. -/
structure MCfg where
  d_model : ℕ
  dt_rank : ℕ
  d_state : ℕ
  expand_factor : ℕ
  d_conv : ℕ
  rms_norm_eps : ℝ
  inner_layernorms : Bool

/-- `d_inner = expand_factor * d_model` (`__post_init__`, line 37). -/
def MCfg.d_inner (c : MCfg) : ℕ := c.expand_factor * c.d_model

/-- The learnable tensors of one `MambaBlock` plus its inner RMSNorm
weights, as index functions. `x_proj` carries no bias in the source
(`bias_attr=False`); the other biases are kept general (they are zero
when the config disables them). -/
structure MParams where
  in_proj_w : ℕ → ℕ → ℝ
  in_proj_b : ℕ → ℝ
  conv_w : ℕ → ℕ → ℝ
  conv_b : ℕ → ℝ
  x_proj_w : ℕ → ℕ → ℝ
  dt_proj_w : ℕ → ℕ → ℝ
  dt_proj_b : ℕ → ℝ
  A_log : ℕ → ℕ → ℝ
  D : ℕ → ℝ
  out_proj_w : ℕ → ℕ → ℝ
  out_proj_b : ℕ → ℝ
  dt_ln_w : ℕ → ℝ
  B_ln_w : ℕ → ℝ
  C_ln_w : ℕ → ℝ

/-- `in_proj` on timestep `t` (`forward` line 178). -/
noncomputable def xzT (c : MCfg) (p : MParams) (x : ℕ → ℕ → ℝ) (t o : ℕ) : ℝ :=
  linApp c.d_model p.in_proj_w p.in_proj_b (x t) o

/-- First chunk of `in_proj`'s output: the x branch (line 179). -/
noncomputable def xPart (c : MCfg) (p : MParams) (x : ℕ → ℕ → ℝ) (t e : ℕ) : ℝ :=
  xzT c p x t e

/-- Second chunk: the z gate branch (line 179). -/
noncomputable def zPart (c : MCfg) (p : MParams) (x : ℕ → ℕ → ℝ) (t e : ℕ) : ℝ :=
  xzT c p x t (c.d_inner + e)

/-- Depthwise `conv1D` with left padding `d_conv - 1`, sliced back to the
first `L` positions (`forward` line 183): the value at time `t`,
channel `e`. -/
noncomputable def convT (c : MCfg) (p : MParams) (x : ℕ → ℕ → ℝ) (t e : ℕ) : ℝ :=
  (∑ j in Finset.range c.d_conv,
    p.conv_w e j *
      (if c.d_conv - 1 ≤ t + j then xPart c p x (t + j - (c.d_conv - 1)) e else 0)) +
    p.conv_b e

/-- `F.silu` after the convolution (line 186). -/
noncomputable def xConv (c : MCfg) (p : MParams) (x : ℕ → ℕ → ℝ) (t e : ℕ) : ℝ :=
  silu (convT c p x t e)

/-- `x_proj` on the convolved activation (`ssm` line 206). -/
noncomputable def dbcT (c : MCfg) (p : MParams) (x : ℕ → ℕ → ℝ) (t o : ℕ) : ℝ :=
  linApp c.d_inner p.x_proj_w (fun _ => 0) (xConv c p x t) o

/-- The Δ split of `x_proj`'s output (`ssm` line 208). -/
noncomputable def dRaw (c : MCfg) (p : MParams) (x : ℕ → ℕ → ℝ) (t r : ℕ) : ℝ :=
  dbcT c p x t r

/-- The B split (`ssm` line 208). -/
noncomputable def bRaw (c : MCfg) (p : MParams) (x : ℕ → ℕ → ℝ) (t n : ℕ) : ℝ :=
  dbcT c p x t (c.dt_rank + n)

/-- The C split (`ssm` line 208). -/
noncomputable def cRaw (c : MCfg) (p : MParams) (x : ℕ → ℕ → ℝ) (t n : ℕ) : ℝ :=
  dbcT c p x t (c.dt_rank + c.d_state + n)

/-- `_apply_layernorms` (lines 162-169) on the Δ split, as `ssm` line 209
calls it: RMSNorm when `inner_layernorms` is set, identity otherwise. -/
noncomputable def dNorm (c : MCfg) (p : MParams) (x : ℕ → ℕ → ℝ) (t r : ℕ) : ℝ :=
  if c.inner_layernorms then
    rmsnorm c.dt_rank c.rms_norm_eps (dRaw c p x t) p.dt_ln_w r
  else dRaw c p x t r

/-- `_apply_layernorms` on the B split. -/
noncomputable def bNorm (c : MCfg) (p : MParams) (x : ℕ → ℕ → ℝ) (t n : ℕ) : ℝ :=
  if c.inner_layernorms then
    rmsnorm c.d_state c.rms_norm_eps (bRaw c p x t) p.B_ln_w n
  else bRaw c p x t n

/-- `_apply_layernorms` on the C split. -/
noncomputable def cNorm (c : MCfg) (p : MParams) (x : ℕ → ℕ → ℝ) (t n : ℕ) : ℝ :=
  if c.inner_layernorms then
    rmsnorm c.d_state c.rms_norm_eps (cRaw c p x t) p.C_ln_w n
  else cRaw c p x t n

/-- Batch-path Δ (`ssm` line 210): `softplus(dt_proj(delta))`. -/
noncomputable def deltaT (c : MCfg) (p : MParams) (x : ℕ → ℕ → ℝ) (t e : ℕ) : ℝ :=
  softplus (linApp c.dt_rank p.dt_proj_w p.dt_proj_b (dNorm c p x t) e)

/-- `A = -exp(A_log)` (`ssm` line 202). -/
noncomputable def Aval (p : MParams) (e n : ℕ) : ℝ := -Real.exp (p.A_log e n)

/-- `deltaA = exp(delta ⊗ A)` (`selective_scan_seq` line 254). -/
noncomputable def deltaA_T (c : MCfg) (p : MParams) (x : ℕ → ℕ → ℝ) (t e n : ℕ) : ℝ :=
  Real.exp (deltaT c p x t e * Aval p e n)

/-- `BX = (delta ⊗ B) * x` (`selective_scan_seq` lines 255-257). -/
noncomputable def bxT (c : MCfg) (p : MParams) (x : ℕ → ℕ → ℝ) (t e n : ℕ) : ℝ :=
  deltaT c p x t e * bNorm c p x t n * xConv c p x t e

/-- The reference loop (`selective_scan_seq` lines 259-264):
`h = deltaA[:, t] * h + BX[:, t]` from `h = 0`. -/
noncomputable def hT (c : MCfg) (p : MParams) (x : ℕ → ℕ → ℝ) : ℕ → ℕ → ℕ → ℝ
  | 0 => fun e n => deltaA_T c p x 0 e n * 0 + bxT c p x 0 e n
  | t + 1 => fun e n =>
      deltaA_T c p x (t + 1) e n * hT c p x t e n + bxT c p x (t + 1) e n

/-- `y = (hs @ C) + D * x` (`selective_scan_seq` lines 268-270). -/
noncomputable def yT (c : MCfg) (p : MParams) (x : ℕ → ℕ → ℝ) (t e : ℕ) : ℝ :=
  (∑ n in Finset.range c.d_state, hT c p x t e n * cNorm c p x t n) +
    p.D e * xConv c p x t e

/-- `forward`'s tail (lines 190-193): gate by `silu(z)`, project out. -/
noncomputable def outT (c : MCfg) (p : MParams) (x : ℕ → ℕ → ℝ) (t d : ℕ) : ℝ :=
  linApp c.d_inner p.out_proj_w p.out_proj_b
    (fun e => yT c p x t e * silu (zPart c p x t e)) d

/-- `in_proj` in `step` (line 307), x chunk, on one timestep's input. -/
noncomputable def stepXs (c : MCfg) (p : MParams) (xt : ℕ → ℝ) (e : ℕ) : ℝ :=
  linApp c.d_model p.in_proj_w p.in_proj_b xt e

/-- `in_proj` in `step`, z chunk. -/
noncomputable def stepZs (c : MCfg) (p : MParams) (xt : ℕ → ℝ) (e : ℕ) : ℝ :=
  linApp c.d_model p.in_proj_w p.in_proj_b xt (c.d_inner + e)

/-- `conv1D(cat([inputs, x_cache]))[:, :, d_conv-1]` (`step` line 312): the
kernel against the buffered window, the fresh input in the last slot. -/
noncomputable def stepConvOut (c : MCfg) (p : MParams) (xt : ℕ → ℝ)
    (buf : ℕ → ℕ → ℝ) (e : ℕ) : ℝ :=
  (∑ j in Finset.range c.d_conv,
    p.conv_w e j * (if j < c.d_conv - 1 then buf e j else stepXs c p xt e)) +
    p.conv_b e

/-- `F.silu` after the stepped convolution (`step` line 314). -/
noncomputable def stepXc (c : MCfg) (p : MParams) (xt : ℕ → ℝ)
    (buf : ℕ → ℕ → ℝ) (e : ℕ) : ℝ :=
  silu (stepConvOut c p xt buf e)

/-- `x_proj` in `ssm_step` (line 340). Its split at line 342 is used RAW:
`ssm_step` never calls `_apply_layernorms`. -/
noncomputable def stepDBC (c : MCfg) (p : MParams) (xt : ℕ → ℝ)
    (buf : ℕ → ℕ → ℝ) (o : ℕ) : ℝ :=
  linApp c.d_inner p.x_proj_w (fun _ => 0) (stepXc c p xt buf) o

/-- Step-path Δ (`ssm_step` line 343): `softplus(dt_proj(delta))` on the
raw Δ split. -/
noncomputable def stepDelta (c : MCfg) (p : MParams) (xt : ℕ → ℝ)
    (buf : ℕ → ℕ → ℝ) (e : ℕ) : ℝ :=
  softplus (linApp c.dt_rank p.dt_proj_w p.dt_proj_b
    (fun r => stepDBC c p xt buf r) e)

/-- The raw B split in `ssm_step` (line 342). -/
noncomputable def stepBv (c : MCfg) (p : MParams) (xt : ℕ → ℝ)
    (buf : ℕ → ℕ → ℝ) (n : ℕ) : ℝ :=
  stepDBC c p xt buf (c.dt_rank + n)

/-- The raw C split in `ssm_step` (line 342). -/
noncomputable def stepCv (c : MCfg) (p : MParams) (xt : ℕ → ℝ)
    (buf : ℕ → ℕ → ℝ) (n : ℕ) : ℝ :=
  stepDBC c p xt buf (c.dt_rank + c.d_state + n)

/-- `h = deltaA * h + BX` (`ssm_step` lines 345-353), `h0` the cached
hidden state (zero on a fresh cache). -/
noncomputable def stepH (c : MCfg) (p : MParams) (xt : ℕ → ℝ)
    (buf : ℕ → ℕ → ℝ) (h0 : ℕ → ℕ → ℝ) (e n : ℕ) : ℝ :=
  Real.exp (stepDelta c p xt buf e * Aval p e n) * h0 e n +
    stepDelta c p xt buf e * stepBv c p xt buf n * stepXc c p xt buf e

/-- `y = (h @ C) + D * x` (`ssm_step` lines 355-357). -/
noncomputable def stepY (c : MCfg) (p : MParams) (xt : ℕ → ℝ)
    (buf : ℕ → ℕ → ℝ) (h0 : ℕ → ℕ → ℝ) (e : ℕ) : ℝ :=
  (∑ n in Finset.range c.d_state,
    stepH c p xt buf h0 e n * stepCv c p xt buf n) +
    p.D e * stepXc c p xt buf e

/-- `step`'s tail (lines 318-321): gate by `silu(z)`, project out. -/
noncomputable def stepOut (c : MCfg) (p : MParams) (xt : ℕ → ℝ)
    (buf : ℕ → ℕ → ℝ) (h0 : ℕ → ℕ → ℝ) (d : ℕ) : ℝ :=
  linApp c.d_inner p.out_proj_w p.out_proj_b
    (fun e => stepY c p xt buf h0 e * silu (stepZs c p xt e)) d

/-- The per-layer cache `(h, inputs)` of the incremental path. -/
structure MCache where
  h : Option (ℕ → ℕ → ℝ)
  buf : ℕ → ℕ → ℝ

/-- The fresh cache `(None, paddle.zeros())` (comment at line 289). -/
def initCache : MCache := ⟨none, fun _ _ => 0⟩

/-- The hidden state a cache holds: zero when fresh (`ssm_step`
lines 350-351). -/
def cacheH (cache : MCache) : ℕ → ℕ → ℝ :=
  match cache.h with
  | none => fun _ _ => (0 : ℝ)
  | some h => h

/-- One call of `MambaBlock.step` (lines 296-327): the output and the
updated cache (hidden state, shifted convolution window). -/
noncomputable def stepBlock (c : MCfg) (p : MParams) (xt : ℕ → ℝ)
    (cache : MCache) : (ℕ → ℝ) × MCache :=
  ⟨stepOut c p xt cache.buf (cacheH cache),
   ⟨some (fun e n => stepH c p xt cache.buf (cacheH cache) e n),
    fun e j =>
      if j + 1 < c.d_conv - 1 then cache.buf e (j + 1) else stepXs c p xt e⟩⟩

/-- `step` iterated from the fresh cache over the prefix `x 0, …, x t`. -/
noncomputable def runSteps (c : MCfg) (p : MParams) (x : ℕ → ℕ → ℝ) :
    ℕ → (ℕ → ℝ) × MCache
  | 0 => stepBlock c p (x 0) initCache
  | t + 1 => stepBlock c p (x (t + 1)) (runSteps c p x t).2

/-- The convolution cache entering step `t`: slot `j` holds the x-branch
input of time `t + j + 1 - d_conv`, zero before the sequence start. -/
def BufOK (c : MCfg) (p : MParams) (x : ℕ → ℕ → ℝ) (t : ℕ)
    (buf : ℕ → ℕ → ℝ) : Prop :=
  ∀ e j, j < c.d_conv - 1 →
    buf e j =
      if c.d_conv ≤ t + j + 1 then xPart c p x (t + j + 1 - c.d_conv) e else 0

lemma stepConvOut_eq (c : MCfg) (p : MParams) (x : ℕ → ℕ → ℝ) (t : ℕ)
    (buf : ℕ → ℕ → ℝ) (hb : BufOK c p x t buf) (hdc : 1 ≤ c.d_conv) (e : ℕ) :
    stepConvOut c p (x t) buf e = convT c p x t e := by
  unfold stepConvOut convT
  congr 1
  apply Finset.sum_congr rfl
  intro j hj
  rw [Finset.mem_range] at hj
  by_cases hlt : j < c.d_conv - 1
  · rw [if_pos hlt, hb e j hlt]
    congr 1
    by_cases hc2 : c.d_conv ≤ t + j + 1
    · rw [if_pos hc2, if_pos (by omega),
        show t + j + 1 - c.d_conv = t + j - (c.d_conv - 1) from by omega]
    · rw [if_neg hc2, if_neg (by omega)]
  · have hj' : j = c.d_conv - 1 := by omega
    subst hj'
    rw [if_neg hlt, if_pos (by omega),
      show t + (c.d_conv - 1) - (c.d_conv - 1) = t from by omega]
    rfl

lemma stepXc_eq (c : MCfg) (p : MParams) (x : ℕ → ℕ → ℝ) (t : ℕ)
    (buf : ℕ → ℕ → ℝ) (hb : BufOK c p x t buf) (hdc : 1 ≤ c.d_conv) (e : ℕ) :
    stepXc c p (x t) buf e = xConv c p x t e := by
  unfold stepXc xConv
  rw [stepConvOut_eq c p x t buf hb hdc e]

lemma stepDBC_eq (c : MCfg) (p : MParams) (x : ℕ → ℕ → ℝ) (t : ℕ)
    (buf : ℕ → ℕ → ℝ) (hb : BufOK c p x t buf) (hdc : 1 ≤ c.d_conv) (o : ℕ) :
    stepDBC c p (x t) buf o = dbcT c p x t o := by
  unfold stepDBC dbcT linApp
  congr 1
  apply Finset.sum_congr rfl
  intro j _
  rw [stepXc_eq c p x t buf hb hdc j]

lemma dNorm_of_false (c : MCfg) (p : MParams) (x : ℕ → ℕ → ℝ) (t r : ℕ)
    (hln : c.inner_layernorms = false) : dNorm c p x t r = dRaw c p x t r := by
  unfold dNorm
  rw [hln]
  simp

lemma bNorm_of_false (c : MCfg) (p : MParams) (x : ℕ → ℕ → ℝ) (t n : ℕ)
    (hln : c.inner_layernorms = false) : bNorm c p x t n = bRaw c p x t n := by
  unfold bNorm
  rw [hln]
  simp

lemma cNorm_of_false (c : MCfg) (p : MParams) (x : ℕ → ℕ → ℝ) (t n : ℕ)
    (hln : c.inner_layernorms = false) : cNorm c p x t n = cRaw c p x t n := by
  unfold cNorm
  rw [hln]
  simp

lemma stepDelta_eq (c : MCfg) (p : MParams) (x : ℕ → ℕ → ℝ) (t : ℕ)
    (buf : ℕ → ℕ → ℝ) (hb : BufOK c p x t buf) (hdc : 1 ≤ c.d_conv)
    (hln : c.inner_layernorms = false) (e : ℕ) :
    stepDelta c p (x t) buf e = deltaT c p x t e := by
  unfold stepDelta deltaT linApp
  congr 2
  apply Finset.sum_congr rfl
  intro r _
  show p.dt_proj_w e r * stepDBC c p (x t) buf r = p.dt_proj_w e r * dNorm c p x t r
  rw [stepDBC_eq c p x t buf hb hdc r, dNorm_of_false c p x t r hln]
  rfl

lemma stepBv_eq (c : MCfg) (p : MParams) (x : ℕ → ℕ → ℝ) (t : ℕ)
    (buf : ℕ → ℕ → ℝ) (hb : BufOK c p x t buf) (hdc : 1 ≤ c.d_conv)
    (hln : c.inner_layernorms = false) (n : ℕ) :
    stepBv c p (x t) buf n = bNorm c p x t n := by
  unfold stepBv
  rw [stepDBC_eq c p x t buf hb hdc _, bNorm_of_false c p x t n hln]
  rfl

lemma stepCv_eq (c : MCfg) (p : MParams) (x : ℕ → ℕ → ℝ) (t : ℕ)
    (buf : ℕ → ℕ → ℝ) (hb : BufOK c p x t buf) (hdc : 1 ≤ c.d_conv)
    (hln : c.inner_layernorms = false) (n : ℕ) :
    stepCv c p (x t) buf n = cNorm c p x t n := by
  unfold stepCv
  rw [stepDBC_eq c p x t buf hb hdc _, cNorm_of_false c p x t n hln]
  rfl

lemma stepH_eq (c : MCfg) (p : MParams) (x : ℕ → ℕ → ℝ) (t : ℕ)
    (buf : ℕ → ℕ → ℝ) (hb : BufOK c p x t buf) (hdc : 1 ≤ c.d_conv)
    (hln : c.inner_layernorms = false) (h0 : ℕ → ℕ → ℝ) (e n : ℕ) :
    stepH c p (x t) buf h0 e n =
      deltaA_T c p x t e n * h0 e n + bxT c p x t e n := by
  unfold stepH deltaA_T bxT
  rw [stepDelta_eq c p x t buf hb hdc hln e, stepBv_eq c p x t buf hb hdc hln n,
    stepXc_eq c p x t buf hb hdc e]

lemma stepOut_eq (c : MCfg) (p : MParams) (x : ℕ → ℕ → ℝ) (t : ℕ)
    (buf : ℕ → ℕ → ℝ) (hb : BufOK c p x t buf) (hdc : 1 ≤ c.d_conv)
    (hln : c.inner_layernorms = false) (h0 : ℕ → ℕ → ℝ)
    (hh : ∀ e n, deltaA_T c p x t e n * h0 e n + bxT c p x t e n =
      hT c p x t e n) (d : ℕ) :
    stepOut c p (x t) buf h0 d = outT c p x t d := by
  unfold stepOut outT linApp
  congr 1
  apply Finset.sum_congr rfl
  intro e _
  have hy : stepY c p (x t) buf h0 e = yT c p x t e := by
    unfold stepY yT
    congr 1
    · apply Finset.sum_congr rfl
      intro n _
      rw [stepH_eq c p x t buf hb hdc hln h0 e n, hh e n,
        stepCv_eq c p x t buf hb hdc hln n]
    · rw [stepXc_eq c p x t buf hb hdc e]
  show p.out_proj_w d e * (stepY c p (x t) buf h0 e * silu (stepZs c p (x t) e)) =
    p.out_proj_w d e * (yT c p x t e * silu (zPart c p x t e))
  rw [hy]
  rfl

lemma bufOK_init (c : MCfg) (p : MParams) (x : ℕ → ℕ → ℝ) :
    BufOK c p x 0 initCache.buf := by
  intro e j hj
  rw [if_neg (by omega)]
  rfl

lemma bufOK_step (c : MCfg) (p : MParams) (x : ℕ → ℕ → ℝ) (t : ℕ)
    (buf : ℕ → ℕ → ℝ) (hb : BufOK c p x t buf) :
    BufOK c p x (t + 1)
      (fun e j =>
        if j + 1 < c.d_conv - 1 then buf e (j + 1) else stepXs c p (x t) e) := by
  intro e j hj
  by_cases hlt : j + 1 < c.d_conv - 1
  · show (if j + 1 < c.d_conv - 1 then buf e (j + 1) else stepXs c p (x t) e) = _
    rw [if_pos hlt, hb e (j + 1) hlt]
    by_cases hc2 : c.d_conv ≤ t + (j + 1) + 1
    · rw [if_pos hc2, if_pos (by omega)]
      congr 2
      omega
    · rw [if_neg hc2, if_neg (by omega)]
  · show (if j + 1 < c.d_conv - 1 then buf e (j + 1) else stepXs c p (x t) e) = _
    rw [if_neg hlt, if_pos (by omega),
      show t + 1 + j + 1 - c.d_conv = t from by omega]
    rfl

lemma runSteps_spec (c : MCfg) (p : MParams) (x : ℕ → ℕ → ℝ)
    (hln : c.inner_layernorms = false) (hdc : 1 ≤ c.d_conv) :
    ∀ t, (∀ d, (runSteps c p x t).1 d = outT c p x t d) ∧
      (runSteps c p x t).2.h = some (fun e n => hT c p x t e n) ∧
      BufOK c p x (t + 1) (runSteps c p x t).2.buf := by
  intro t
  induction t with
  | zero =>
    have hb := bufOK_init c p x
    refine ⟨?_, ?_, ?_⟩
    · intro d
      exact stepOut_eq c p x 0 initCache.buf hb hdc hln _ (fun e n => rfl) d
    · show some _ = some _
      congr 1
      funext e n
      rw [stepH_eq c p x 0 initCache.buf hb hdc hln _ e n]
      rfl
    · exact bufOK_step c p x 0 initCache.buf hb
  | succ t ih =>
    obtain ⟨_, ihh, ihb⟩ := ih
    have hch : cacheH (runSteps c p x t).2 = fun e n => hT c p x t e n := by
      rw [cacheH, ihh]
    show (∀ d, (stepBlock c p (x (t + 1)) (runSteps c p x t).2).1 d = _) ∧ _ ∧ _
    refine ⟨?_, ?_, ?_⟩
    · intro d
      show stepOut c p (x (t + 1)) (runSteps c p x t).2.buf
        (cacheH (runSteps c p x t).2) d = _
      rw [hch]
      exact stepOut_eq c p x (t + 1) _ ihb hdc hln _ (fun e n => rfl) d
    · show some _ = some _
      congr 1
      funext e n
      show stepH c p (x (t + 1)) (runSteps c p x t).2.buf
        (cacheH (runSteps c p x t).2) e n = _
      rw [stepH_eq c p x (t + 1) _ ihb hdc hln _ e n, hch]
      rfl
    · exact bufOK_step c p x (t + 1) _ ihb

lemma softplus_of_le (x : ℝ) (h : x ≤ 20) :
    softplus x = Real.log (1 + Real.exp x) := by
  unfold softplus
  rw [if_neg (by linarith)]

lemma softplus_pos (x : ℝ) : 0 < softplus x := by
  unfold softplus
  by_cases h : 20 < x
  · rw [if_pos h]
    linarith
  · rw [if_neg h]
    apply Real.log_pos
    have := Real.exp_pos x
    linarith

lemma softplus_lt (x y : ℝ) (hxy : x < y) (hy : y ≤ 20) :
    softplus x < softplus y := by
  rw [softplus_of_le x (by linarith), softplus_of_le y hy]
  apply Real.log_lt_log
  · have := Real.exp_pos x
    linarith
  · have := Real.exp_lt_exp.mpr hxy
    linarith

lemma silu_one_pos : 0 < silu 1 := by
  unfold silu sigmoid
  rw [one_mul]
  have := Real.exp_pos (-(1 : ℝ))
  positivity

lemma silu_one_lt_one : silu 1 < 1 := by
  unfold silu sigmoid
  rw [one_mul]
  have h := Real.exp_pos (-(1 : ℝ))
  rw [div_lt_one (by linarith)]
  linarith

/-- Counterexample instance for the batch/step comparison: every dimension
1, `d_conv = 1`, `rms_norm_eps = 0`, the inner layernorms ON (the source's
default), every weight 1, every bias and `A_log` and `D` zero, constant
input 1. -/
def cfgCe : MCfg := ⟨1, 1, 1, 1, 1, 0, true⟩

def pCe : MParams :=
  ⟨fun _ _ => 1, fun _ => 0, fun _ _ => 1, fun _ => 0, fun _ _ => 1,
   fun _ _ => 1, fun _ => 0, fun _ _ => 0, fun _ => 0, fun _ _ => 1,
   fun _ => 0, fun _ => 1, fun _ => 1, fun _ => 1⟩

def xCe : ℕ → ℕ → ℝ := fun _ _ => 1

lemma xPart_ce (e : ℕ) : xPart cfgCe pCe xCe 0 e = 1 := by
  simp [xPart, xzT, linApp, cfgCe, pCe, xCe]

lemma zPart_ce (e : ℕ) : zPart cfgCe pCe xCe 0 e = 1 := by
  simp [zPart, xzT, linApp, cfgCe, pCe, xCe]

lemma xConv_ce (e : ℕ) : xConv cfgCe pCe xCe 0 e = silu 1 := by
  unfold xConv convT
  rw [show cfgCe.d_conv = 1 from rfl, Finset.sum_range_one]
  rw [if_pos (by norm_num), xPart_ce e,
    show pCe.conv_w e 0 = 1 from rfl, show pCe.conv_b e = 0 from rfl]
  norm_num

lemma dbcT_ce (o : ℕ) : dbcT cfgCe pCe xCe 0 o = silu 1 := by
  unfold dbcT linApp
  rw [show MCfg.d_inner cfgCe = 1 from rfl, Finset.sum_range_one, xConv_ce 0,
    show pCe.x_proj_w o 0 = 1 from rfl]
  norm_num

lemma rmsnorm_const_one (v : ℕ → ℝ) (s : ℝ) (hv : ∀ i, v i = s) (hs : 0 < s)
    (i : ℕ) : rmsnorm 1 0 v (fun _ => 1) i = 1 := by
  unfold rmsnorm
  rw [Finset.sum_range_one, hv 0, hv i, Nat.cast_one, div_one, add_zero,
    Real.sqrt_sq hs.le, mul_inv_cancel₀ (ne_of_gt hs), one_mul]

lemma dNorm_ce (r : ℕ) : dNorm cfgCe pCe xCe 0 r = 1 := by
  unfold dNorm
  rw [if_pos (show cfgCe.inner_layernorms = true from rfl)]
  exact rmsnorm_const_one (dRaw cfgCe pCe xCe 0) (silu 1)
    (fun i => dbcT_ce i) silu_one_pos r

lemma bNorm_ce (n : ℕ) : bNorm cfgCe pCe xCe 0 n = 1 := by
  unfold bNorm
  rw [if_pos (show cfgCe.inner_layernorms = true from rfl)]
  exact rmsnorm_const_one (bRaw cfgCe pCe xCe 0) (silu 1)
    (fun i => dbcT_ce _) silu_one_pos n

lemma cNorm_ce (n : ℕ) : cNorm cfgCe pCe xCe 0 n = 1 := by
  unfold cNorm
  rw [if_pos (show cfgCe.inner_layernorms = true from rfl)]
  exact rmsnorm_const_one (cRaw cfgCe pCe xCe 0) (silu 1)
    (fun i => dbcT_ce _) silu_one_pos n

lemma deltaT_ce (e : ℕ) : deltaT cfgCe pCe xCe 0 e = softplus 1 := by
  unfold deltaT
  congr 1
  unfold linApp
  rw [show cfgCe.dt_rank = 1 from rfl, Finset.sum_range_one, dNorm_ce 0,
    show pCe.dt_proj_w e 0 = 1 from rfl, show pCe.dt_proj_b e = 0 from rfl]
  norm_num

lemma hT_ce : hT cfgCe pCe xCe 0 0 0 = softplus 1 * silu 1 := by
  show deltaA_T cfgCe pCe xCe 0 0 0 * 0 + bxT cfgCe pCe xCe 0 0 0 = _
  rw [mul_zero, zero_add]
  unfold bxT
  rw [deltaT_ce 0, bNorm_ce 0, xConv_ce 0, mul_one]

lemma yT_ce : yT cfgCe pCe xCe 0 0 = softplus 1 * silu 1 := by
  unfold yT
  rw [show cfgCe.d_state = 1 from rfl, Finset.sum_range_one, hT_ce, cNorm_ce 0,
    mul_one, show pCe.D 0 = 0 from rfl, zero_mul, add_zero]

lemma outT_ce : outT cfgCe pCe xCe 0 0 = softplus 1 * silu 1 * silu 1 := by
  unfold outT linApp
  rw [show MCfg.d_inner cfgCe = 1 from rfl, Finset.sum_range_one]
  show pCe.out_proj_w 0 0 * (yT cfgCe pCe xCe 0 0 * silu (zPart cfgCe pCe xCe 0 0)) +
    pCe.out_proj_b 0 = _
  rw [show pCe.out_proj_w 0 0 = 1 from rfl, show pCe.out_proj_b 0 = 0 from rfl,
    one_mul, add_zero, yT_ce, zPart_ce 0, mul_assoc]

lemma stepXs_ce (e : ℕ) : stepXs cfgCe pCe (xCe 0) e = 1 := by
  simp [stepXs, linApp, cfgCe, pCe, xCe]

lemma stepZs_ce (e : ℕ) : stepZs cfgCe pCe (xCe 0) e = 1 := by
  simp [stepZs, linApp, cfgCe, pCe, xCe]

lemma stepXc_ce (buf : ℕ → ℕ → ℝ) (e : ℕ) :
    stepXc cfgCe pCe (xCe 0) buf e = silu 1 := by
  unfold stepXc stepConvOut
  rw [show cfgCe.d_conv = 1 from rfl, Finset.sum_range_one]
  rw [if_neg (by norm_num), stepXs_ce e,
    show pCe.conv_w e 0 = 1 from rfl, show pCe.conv_b e = 0 from rfl]
  norm_num

lemma stepDBC_ce (buf : ℕ → ℕ → ℝ) (o : ℕ) :
    stepDBC cfgCe pCe (xCe 0) buf o = silu 1 := by
  unfold stepDBC linApp
  rw [show MCfg.d_inner cfgCe = 1 from rfl, Finset.sum_range_one, stepXc_ce buf 0,
    show pCe.x_proj_w o 0 = 1 from rfl]
  norm_num

lemma stepDelta_ce (buf : ℕ → ℕ → ℝ) (e : ℕ) :
    stepDelta cfgCe pCe (xCe 0) buf e = softplus (silu 1) := by
  unfold stepDelta
  congr 1
  unfold linApp
  rw [show cfgCe.dt_rank = 1 from rfl, Finset.sum_range_one]
  show pCe.dt_proj_w e 0 * stepDBC cfgCe pCe (xCe 0) buf 0 + pCe.dt_proj_b e = _
  rw [stepDBC_ce buf 0, show pCe.dt_proj_w e 0 = 1 from rfl,
    show pCe.dt_proj_b e = 0 from rfl]
  norm_num

lemma stepH_ce (buf : ℕ → ℕ → ℝ) :
    stepH cfgCe pCe (xCe 0) buf (fun _ _ => 0) 0 0 =
      softplus (silu 1) * silu 1 * silu 1 := by
  unfold stepH
  show Real.exp _ * 0 + _ = _
  rw [mul_zero, zero_add, stepDelta_ce buf 0, stepXc_ce buf 0]
  show _ * stepBv cfgCe pCe (xCe 0) buf 0 * _ = _
  rw [show stepBv cfgCe pCe (xCe 0) buf 0 = stepDBC cfgCe pCe (xCe 0) buf 1 from rfl,
    stepDBC_ce buf 1]

lemma stepY_ce (buf : ℕ → ℕ → ℝ) :
    stepY cfgCe pCe (xCe 0) buf (fun _ _ => 0) 0 =
      softplus (silu 1) * silu 1 * silu 1 * silu 1 := by
  unfold stepY
  rw [show cfgCe.d_state = 1 from rfl, Finset.sum_range_one, stepH_ce buf,
    show stepCv cfgCe pCe (xCe 0) buf 0 = stepDBC cfgCe pCe (xCe 0) buf 2 from rfl,
    stepDBC_ce buf 2, show pCe.D 0 = 0 from rfl, zero_mul, add_zero]

lemma runSteps_ce : (runSteps cfgCe pCe xCe 0).1 0 =
    softplus (silu 1) * silu 1 * silu 1 * silu 1 * silu 1 := by
  show stepOut cfgCe pCe (xCe 0) initCache.buf (cacheH initCache) 0 = _
  unfold stepOut linApp
  rw [show MCfg.d_inner cfgCe = 1 from rfl, Finset.sum_range_one]
  show pCe.out_proj_w 0 0 *
    (stepY cfgCe pCe (xCe 0) initCache.buf (cacheH initCache) 0 *
      silu (stepZs cfgCe pCe (xCe 0) 0)) + pCe.out_proj_b 0 = _
  rw [show pCe.out_proj_w 0 0 = 1 from rfl, show pCe.out_proj_b 0 = 0 from rfl,
    one_mul, add_zero,
    show cacheH initCache = fun _ _ => (0 : ℝ) from rfl, stepY_ce initCache.buf,
    stepZs_ce 0, mul_assoc, mul_assoc, mul_assoc]

/-- Parameters witnessing that Δ has no positive floor: `dt_proj` has zero
weight and bias `beta`, so `Δ = softplus(beta)` whatever the input. -/
def p9 (beta : ℝ) : MParams :=
  ⟨fun _ _ => 0, fun _ => 0, fun _ _ => 0, fun _ => 0, fun _ _ => 0,
   fun _ _ => 0, fun _ => beta, fun _ _ => 0, fun _ => 0, fun _ _ => 0,
   fun _ => 0, fun _ => 0, fun _ => 0, fun _ => 0⟩

lemma deltaT_of_zero_w (c : MCfg) (p : MParams)
    (hw : p.dt_proj_w = fun _ _ => 0) (x : ℕ → ℕ → ℝ) (t e : ℕ) :
    deltaT c p x t e = softplus (p.dt_proj_b e) := by
  unfold deltaT linApp
  rw [hw]
  simp

lemma deltaT_arbitrarily_small (ceps : ℝ) (hc : 0 < ceps) :
    ∃ (c : MCfg) (p : MParams) (x : ℕ → ℕ → ℝ) (t e : ℕ),
      deltaT c p x t e < ceps := by
  set g : ℝ := min ceps 1 / 2 with hg
  have hmin : 0 < min ceps 1 := lt_min hc one_pos
  have hg0 : 0 < g := by rw [hg]; linarith
  have hgc : g < ceps := by
    have h1 : min ceps 1 ≤ ceps := min_le_left _ _
    rw [hg]
    linarith
  have hexp : 0 < Real.exp g - 1 := by
    have := Real.add_one_lt_exp (ne_of_gt hg0)
    linarith
  refine ⟨⟨1, 1, 1, 1, 1, 0, false⟩, p9 (Real.log (Real.exp g - 1)),
    fun _ _ => 0, 0, 0, ?_⟩
  rw [deltaT_of_zero_w _ _ rfl _ _ _]
  show softplus (Real.log (Real.exp g - 1)) < ceps
  have hb20 : Real.log (Real.exp g - 1) ≤ 20 := by
    have h1 : Real.log (Real.exp g - 1) < Real.log (Real.exp g) :=
      Real.log_lt_log hexp (by linarith)
    rw [Real.log_exp] at h1
    have h2 : min ceps 1 ≤ 1 := min_le_right _ _
    rw [hg] at h1
    linarith
  rw [softplus_of_le _ hb20,
    show (1 : ℝ) + Real.exp (Real.log (Real.exp g - 1)) = Real.exp g from by
      rw [Real.exp_log hexp]; ring,
    Real.log_exp]
  exact hgc

/-! ### The claims -/

/-- Claim C1: the parallel scan path (`PScan.forward`, pad/scan/truncate)
returns the same hidden-state sequence as the sequential reference loop of
`selective_scan_seq` for every per-lane input of any positive length —
EXCEPT length 2, where the parallel path faults (the `elif Xa.shape[2] == 2`
branch of `pscan` falls through to a fractional slice stride), so the claim
fails at L = 2 (one of the lengths it names explicitly). -/
theorem pscan_matches_seqscan :
    (∀ A X : List ℚ, A.length = X.length → 0 < X.length → X.length ≠ 2 →
      forwardModel A X = some (seqScan A X)) ∧
    forwardModel [(1 : ℚ)/2, 1/2] [1, 1] = none ∧
    seqScan [(1 : ℚ)/2, 1/2] [1, 1] = [1, 3/2] := by
  refine ⟨fun A X h1 h2 h3 => forward_correct A X h1 h2 h3, ?_, ?_⟩
  · norm_num [forwardModel, forwardCtx, npo2M, clog2M, clog2go, pscanModel, log2M,
      log2go, upSweepF, upRoundF, foldRange, upPairF, pairComb, lget]
  · norm_num [seqScan, seqScanGo]

/-- Claim C3: composed with the context `PScan.forward` saves, the reverse
pass (`PScan.backward` with `pscan_rev`) returns exactly the mathematical
gradient of the recurrence `h_t = deltaA_t * h_{t-1} + BX_t`, `h_{-1} = 0`:
the BX gradient at `t` is `∑_{u ≥ t} grad_u · ∏_{t < w ≤ u} deltaA_w`
(the reverse scan under the shifted transition), and the deltaA gradient at
`t ≥ 1` is `h_{t-1}` times that value, zero at `t = 0` — for every length
EXCEPT 2, where `pscan_rev` faults just as `pscan` does. -/
theorem backward_exact_gradient :
    (∀ A X G : List ℚ, A.length = X.length → G.length = X.length →
      0 < X.length → X.length ≠ 2 →
      ∃ Xs Q Gx, forwardCtx A X = some (A, Xs) ∧
        backwardModel A Xs G = some (Q, Gx) ∧
        Q.length = X.length ∧ Gx.length = X.length ∧
        (∀ t, t < X.length → lget Gx t = gradBX A G X.length t) ∧
        (∀ t, t < X.length →
          lget Q t = if t = 0 then 0
            else hval A X (t - 1) * gradBX A G X.length t)) ∧
    backwardModel [(1 : ℚ)/2, 1/2] [1, 3/2] [1, 1] = none := by
  refine ⟨fun A X G h1 h2 h3 h4 => backward_correct A X G h1 h2 h3 h4, ?_⟩
  norm_num [backwardModel, npo2M, clog2M, clog2go, pscanRevModel, log2M, log2go,
    upSweepR, upRoundR, foldRange, upPairR, pairComb, lget]

/-- Claim C4: the concrete L = 4 scenario — `deltaA = [1/2, 1/2, 1/2, 1/2]`,
`BX = [1, 1, 1, 1]` — yields `h = [1, 3/2, 7/4, 15/8]` through the full
parallel path. -/
theorem concrete_scan_L4 :
    forwardModel [(1 : ℚ)/2, 1/2, 1/2, 1/2] [1, 1, 1, 1] =
      some [1, 3/2, 7/4, 15/8] := by
  norm_num [forwardModel, forwardCtx, npo2M, clog2M, clog2go, pscanModel, log2M,
    log2go, upSweepF, upRoundF, foldRange, upPairF, pairComb, baseFourF, midF,
    downSweepF, downRoundF, downPairF, lget]

/-- Claim C5: both evaluators start from the zero initial state: position 0
of the sequential reference scan is `BX_0` — a value that does not mention
`deltaA_0` or any pre-existing state — and every successful parallel-path
output agrees at position 0. -/
theorem zero_initial_state :
    (∀ A X : List ℚ, 0 < A.length → 0 < X.length →
      lget (seqScan A X) 0 = lget X 0) ∧
    (∀ A X Y : List ℚ, A.length = X.length → 0 < X.length → X.length ≠ 2 →
      forwardModel A X = some Y → lget Y 0 = lget X 0) := by
  have hbase : ∀ A X : List ℚ, 0 < A.length → 0 < X.length →
      lget (seqScan A X) 0 = lget X 0 := by
    intro A X hA hX
    rcases A with _ | ⟨a, A'⟩
    · simp at hA
    rcases X with _ | ⟨x, X'⟩
    · simp at hX
    simp [seqScan, seqScanGo, lget]
  refine ⟨hbase, fun A X Y h1 h2 h3 hY => ?_⟩
  rw [forward_correct A X h1 h2 h3] at hY
  rw [← Option.some.inj hY]
  exact hbase A X (by omega) h2

/-- Claim C6: for every non-power-of-two length the parallel path zero-pads
up to the next power of two (`pad_npo2`: length `npo2(L)`, original values
kept, zeros behind) and the padded-then-truncated output equals the
un-padded sequential recurrence on the original positions. -/
theorem padding_neutrality :
    (∀ X : List ℚ, (padNpo2 X).length = npo2M X.length ∧
      ∀ t, lget (padNpo2 X) t = if t < X.length then lget X t else 0) ∧
    ∀ A X : List ℚ, A.length = X.length → 0 < X.length →
      X.length ≠ npo2M X.length → forwardModel A X = some (seqScan A X) := by
  constructor
  · intro X
    exact ⟨padNpo2_length X, fun t => lget_pad_eq X t⟩
  · intro A X h1 h2 h3
    have h5 : npo2M 2 = 2 := by
      have h := npo2M_pow 1
      norm_num at h
      exact h
    have h4 : X.length ≠ 2 := by
      intro hcon
      rw [hcon, h5] at h3
      exact h3 rfl
    exact forward_correct A X h1 h2 h4

/-- Claim C7: L = 1 passes through the scan untouched (`[BX_0]`), but L = 2
is NOT a valid base case: `pscan`'s length-2 branch falls through to the
`2**(num_steps-2)` slice with `num_steps = 1`, a fractional stride, so the
parallel path faults instead of returning `[BX_0, deltaA_1*BX_0 + BX_1]`. -/
theorem pscan_base_cases :
    (∀ a x : ℚ, forwardModel [a] [x] = some [x]) ∧
    forwardModel [(1 : ℚ)/3, 2] [5, 7] = none := by
  constructor
  · intro a x
    rw [forward_correct [a] [x] rfl (by norm_num) (by norm_num)]
    norm_num [seqScan, seqScanGo]
  · norm_num [forwardModel, forwardCtx, npo2M, clog2M, clog2go, pscanModel, log2M,
      log2go, upSweepF, upRoundF, foldRange, upPairF, pairComb, lget]

/-- Claim C2 (amended): with the inner layernorms DISABLED
(`inner_layernorms = false`; under the source's default `true` the claim
fails, see the counterexample) and a positive kernel width, running
`MambaBlock.step` `t+1` times from the fresh cache on the first `t+1`
timesteps reproduces row `t` of the batch evaluator exactly. -/
theorem step_matches_forward (c : MCfg) (p : MParams) (x : ℕ → ℕ → ℝ)
    (hln : c.inner_layernorms = false) (hdc : 1 ≤ c.d_conv) (t d : ℕ) :
    (runSteps c p x t).1 d = outT c p x t d :=
  (runSteps_spec c p x hln hdc t).1 d

/-- All-dimensions-1 configuration with the inner layernorms disabled, for
the witness instance. -/
def cfgW : MCfg := ⟨1, 1, 1, 1, 1, 0, false⟩

/-- Witness for claim C2's amended theorem at a concrete instance. -/
theorem step_matches_forward_witness :
    cfgW.inner_layernorms = false ∧ 1 ≤ cfgW.d_conv ∧
      (runSteps cfgW pCe xCe 0).1 0 = outT cfgW pCe xCe 0 0 :=
  ⟨rfl, le_refl 1, step_matches_forward cfgW pCe xCe rfl (le_refl 1) 0 0⟩

/-- Claim C2 counterexample: under the source's DEFAULT configuration
(`inner_layernorms = true`, here with every dimension 1, `eps = 0`, unit
weights, constant input 1) the first step output differs from row 0 of the
batch evaluator — `ssm_step` skips `_apply_layernorms`, so the step path
computes `softplus(silu 1)·(silu 1)⁴` where the batch path computes
`softplus(1)·(silu 1)²`. -/
theorem step_forward_mismatch :
    (runSteps cfgCe pCe xCe 0).1 0 ≠ outT cfgCe pCe xCe 0 0 := by
  rw [runSteps_ce, outT_ce]
  have hs0 := silu_one_pos
  have hs1 := silu_one_lt_one
  have hsp1 : softplus (silu 1) < softplus 1 := softplus_lt _ _ hs1 (by norm_num)
  have hsp0 : 0 < softplus (silu 1) := softplus_pos _
  apply ne_of_lt
  have hss : silu 1 * silu 1 < 1 := by nlinarith
  calc softplus (silu 1) * silu 1 * silu 1 * silu 1 * silu 1
      = (softplus (silu 1) * silu 1 * silu 1) * (silu 1 * silu 1) := by ring
    _ < (softplus (silu 1) * silu 1 * silu 1) * 1 :=
        mul_lt_mul_of_pos_left hss (by positivity)
    _ = softplus (silu 1) * silu 1 * silu 1 := by ring
    _ < softplus 1 * silu 1 * silu 1 :=
        mul_lt_mul_of_pos_right (mul_lt_mul_of_pos_right hsp1 hs0) hs0

/-- Claim C8: for every input and all parameter values the batch path's Δ
(softplus of `dt_proj`) is strictly positive, `A = -exp(A_log)` is strictly
negative, and every component of `deltaA = exp(Δ ⊗ A)` lies in `(0, 1]`. -/
theorem delta_pos_A_neg_deltaA_unit_interval :
    ∀ (c : MCfg) (p : MParams) (x : ℕ → ℕ → ℝ) (t e n : ℕ),
      0 < deltaT c p x t e ∧ Aval p e n < 0 ∧
        0 < deltaA_T c p x t e n ∧ deltaA_T c p x t e n ≤ 1 := by
  intro c p x t e n
  have hd : 0 < deltaT c p x t e := softplus_pos _
  have ha : Aval p e n < 0 := neg_lt_zero.mpr (Real.exp_pos _)
  refine ⟨hd, ha, Real.exp_pos _, ?_⟩
  unfold deltaA_T
  rw [show (1 : ℝ) = Real.exp 0 from Real.exp_zero.symm]
  exact Real.exp_le_exp.mpr (by nlinarith)

/-- Claim C9 (amended): Δ is strictly positive for every input and all
parameters, but NO fixed positive constant bounds it below: the softplus
transform's output can be made smaller than any `ε > 0` by choice of
parameters (`dt_init_floor` only shapes the initial bias; nothing clips Δ
at runtime). -/
theorem delta_positive_no_floor :
    (∀ (c : MCfg) (p : MParams) (x : ℕ → ℕ → ℝ) (t e : ℕ),
      0 < deltaT c p x t e) ∧
    ∀ ceps : ℝ, 0 < ceps →
      ∃ (c : MCfg) (p : MParams) (x : ℕ → ℕ → ℝ) (t e : ℕ),
        deltaT c p x t e < ceps :=
  ⟨fun _ _ _ _ _ => softplus_pos _, deltaT_arbitrarily_small⟩

/-- Claim C9 counterexample: there is no fixed positive floor `c` with
`c ≤ Δ` for every input and all parameter values. -/
theorem delta_floor_counterexample :
    ¬ ∃ ceps : ℝ, 0 < ceps ∧
      ∀ (c : MCfg) (p : MParams) (x : ℕ → ℕ → ℝ) (t e : ℕ),
        ceps ≤ deltaT c p x t e := by
  rintro ⟨ceps, hc, hall⟩
  obtain ⟨c, p, x, t, e, hlt⟩ := deltaT_arbitrarily_small ceps hc
  exact absurd (hall c p x t e) (not_le.mpr hlt)

/-- Claim C10: the incremental path never applies the inner RMS layernorms
— `ssm_step`'s Δ, B, C are the same whatever `inner_layernorms` says
(first conjunct: flipping the flag changes nothing on the step path) —
while the batch path does apply them, so on a concrete instance the two
paths' Δ coefficients differ. -/
theorem ssm_step_no_layernorms :
    (∀ (c : MCfg) (p : MParams) (xt : ℕ → ℝ) (buf : ℕ → ℕ → ℝ) (e : ℕ),
      stepDelta c p xt buf e =
        stepDelta ⟨c.d_model, c.dt_rank, c.d_state, c.expand_factor, c.d_conv,
          c.rms_norm_eps, false⟩ p xt buf e ∧
      stepBv c p xt buf e =
        stepBv ⟨c.d_model, c.dt_rank, c.d_state, c.expand_factor, c.d_conv,
          c.rms_norm_eps, false⟩ p xt buf e ∧
      stepCv c p xt buf e =
        stepCv ⟨c.d_model, c.dt_rank, c.d_state, c.expand_factor, c.d_conv,
          c.rms_norm_eps, false⟩ p xt buf e) ∧
    deltaT cfgCe pCe xCe 0 0 ≠ stepDelta cfgCe pCe (xCe 0) (fun _ _ => 0) 0 := by
  refine ⟨fun c p xt buf e => ⟨rfl, rfl, rfl⟩, ?_⟩
  rw [deltaT_ce 0, stepDelta_ce _ 0]
  exact (softplus_lt _ _ silu_one_lt_one (by norm_num)).ne'
